import Mathlib

/-!
Verification of the core codec logic of the FreeImage/OpenEXR sources:

* `Source/OpenEXR/OpenEXR/ImfPxr24Compressor.cpp` — the Pxr24 compressor:
  float→24-bit quantization (`floatToFloat24`), per-channel wraparound
  delta coding and byte-plane transposition on compress, and the inverse
  gathering/accumulation on uncompress.  The deflate backend is treated as
  a faithful inverse pair, so the model composes the preprocessing with
  the postprocessing directly.
* `Source/OpenEXR/OpenEXR/ImfFastHuf.cpp` — the FastHuf canonical Huffman
  decoder: code-length statistics, the double-precision closed-form `base`
  computation, offset and left-justified tables, the id→symbol fill with
  its overflow check, the acceleration table, and the payload decode loop
  with its RLE handling and error taxonomy.

Machine integers are modelled as `Nat` with explicit `% 2^w` where the C
code relies on unsigned wraparound; the C `int` counters that can go
negative are modelled as `Int`.  Bit operations (`&&&`, `|||`, `<<<`,
`>>>`) are kept literal and related to arithmetic by helper lemmas.
-/

/-! ## Pxr24: float → float24 quantization (ImfPxr24Compressor.cpp, lines 65-133)

`u` is the IEEE-754 binary32 bit pattern of the input float (the C code
reads it through a union).  The returned value is a 24-bit pattern in the
low bits of a 32-bit word; decoding is a left shift by 8. -/

def floatToFloat24 (u : Nat) : Nat :=
  let s := u &&& 0x80000000
  let e := u &&& 0x7f800000
  let m := u &&& 0x007fffff
  let i :=
    if e = 0x7f800000 then
      if m ≠ 0 then
        -- NaN: keep sign and the 15 leftmost significand bits; if those
        -- are all zero set at least one bit so it does not become Inf.
        let m8 := m >>> 8
        (e >>> 8) ||| m8 ||| (if m8 = 0 then 1 else 0)
      else
        -- Infinity.
        e >>> 8
    else
      -- Finite: round the significand to 15 bits; on exponent overflow
      -- (input close to FLT_MAX rounded up) truncate instead.
      let i0 := ((e ||| m) + (m &&& 0x00000080)) >>> 8
      if 0x7f8000 ≤ i0 then (e ||| m) >>> 8 else i0
  (s >>> 8) ||| i

/-- Decoding a 24-bit pattern back to a 32-bit float pattern is a left
shift by 8 (ImfPxr24Compressor.cpp lines 60-62 and 502-504). -/
def float24Decode (i : Nat) : Nat := i <<< 8

/-- Arithmetic form of `floatToFloat24` in terms of the sign bit `a`,
exponent field `b` and significand field `c` of the input pattern; proved
equal to `floatToFloat24` below (`floatToFloat24_arith`) and used by the
proofs only. -/
def f24A (a b c : Nat) : Nat :=
  a * 2^23 +
  (if b = 255 then
     if c ≠ 0 then 255 * 2^15 + c / 2^8 + (if c / 2^8 = 0 then 1 else 0)
     else 255 * 2^15
   else
     if 0x7f8000 ≤ (b * 2^23 + c + c / 2^7 % 2 * 2^7) / 2^8 then (b * 2^23 + c) / 2^8
     else (b * 2^23 + c + c / 2^7 % 2 * 2^7) / 2^8)

/-- The 32-bit pattern is an infinity: exponent field all ones, zero
significand. -/
def isInf32 (u : Nat) : Prop := u &&& 0x7f800000 = 0x7f800000 ∧ u &&& 0x007fffff = 0

/-- The 32-bit pattern is a NaN: exponent field all ones, nonzero
significand. -/
def isNaN32 (u : Nat) : Prop := u &&& 0x7f800000 = 0x7f800000 ∧ u &&& 0x007fffff ≠ 0

/-! ## Pxr24: per-channel preprocessing (compress, lines 253-386) and its
inverse (uncompress, lines 389-526)

The compressor walks the scan lines and channels, and for each (row,
active channel) pair reads `n` samples from the input stream, delta-codes
them with 32-bit wraparound, and scatters the difference bytes into
`bytesPerSample` contiguous byte planes.  The uncompressor traverses
identically, gathering the planes and accumulating.  Bytes are `Nat`
values `< 256` (unsigned char). -/

inductive PixelType
  | UINT
  | HALF
  | FLOAT
deriving DecidableEq

/-- Unsigned 32-bit subtraction `a - b` (wraparound), for `a, b < 2^32`. -/
def sub32 (a b : Nat) : Nat := (a + 2^32 - b) % 2^32

/-- The chain of differences `value - previous` (unsigned 32-bit), with
`previousPixel` initialized to 0 (lines 286, 306-307, 330-331, 355-356). -/
def deltas (prev : Nat) : List Nat → List Nat
  | [] => []
  | v :: vs => sub32 v prev :: deltas v vs

/-- Byte-plane transposition of the per-sample differences, one plane per
byte position, most significant first (lines 309-312, 333-334, 358-360).
Each stored byte is an unsigned char, hence `% 256`. -/
def planesOf (t : PixelType) (ds : List Nat) : List Nat :=
  match t with
  | PixelType.UINT =>
      ds.map (fun d => (d >>> 24) % 256) ++ ds.map (fun d => (d >>> 16) % 256) ++
      ds.map (fun d => (d >>> 8) % 256) ++ ds.map (fun d => d % 256)
  | PixelType.HALF =>
      ds.map (fun d => (d >>> 8) % 256) ++ ds.map (fun d => d % 256)
  | PixelType.FLOAT =>
      ds.map (fun d => (d >>> 16) % 256) ++ ds.map (fun d => (d >>> 8) % 256) ++
      ds.map (fun d => d % 256)

/-- FLOAT samples are quantized to 24 bits before delta coding
(line 354); UINT and HALF are used as-is. -/
def chanValues : PixelType → List Nat → List Nat
  | PixelType.FLOAT, vs => vs.map floatToFloat24
  | _, vs => vs

/-- Bytes read from the input per sample (sizeof pixel / sizeof half). -/
def sampleBytes : PixelType → Nat
  | PixelType.UINT => 4
  | PixelType.HALF => 2
  | PixelType.FLOAT => 4

/-- Byte planes written to the scratch buffer per sample. -/
def numPlanes : PixelType → Nat
  | PixelType.UINT => 4
  | PixelType.HALF => 2
  | PixelType.FLOAT => 3

/-- Read `k` bytes from the head of the stream as a host little-endian
integer (the byte-wise `memcpy` into `pixel` at lines 300-304/325-328/
348-352; both compress and uncompress use the same host order, modelled
as little-endian). -/
def readLE : Nat → List Nat → Option (Nat × List Nat)
  | 0, bs => some (0, bs)
  | _ + 1, [] => none
  | k + 1, b :: bs =>
    match readLE k bs with
    | none => none
    | some (v, rest) => some ((b % 256) + 256 * v, rest)

/-- Read `n` samples of `bps` bytes each from the input stream. -/
def readPixels (bps : Nat) : Nat → List Nat → Option (List Nat × List Nat)
  | 0, bs => some ([], bs)
  | n + 1, bs =>
    match readLE bps bs with
    | none => none
    | some (v, bs1) =>
      match readPixels bps n bs1 with
      | none => none
      | some (vs, bs2) => some (v :: vs, bs2)

/-- Write a value as `k` host little-endian bytes (the byte-wise copy out
of `pixel` at lines 459-462/483-485/507-510). -/
def writeLE : Nat → Nat → List Nat
  | 0, _ => []
  | k + 1, v => (v % 256) :: writeLE k (v / 256)

/-- Compress-side traversal over the sequence of (type, sample count)
channel-row segments, producing the scratch-buffer contents handed to
deflate.  The input must be consumed exactly. -/
def compressSegs : List (PixelType × Nat) → List Nat → Option (List Nat)
  | [], input => if input = [] then some [] else none
  | (t, n) :: rest, input =>
    match readPixels (sampleBytes t) n input with
    | none => none
    | some (vs, input1) =>
      match compressSegs rest input1 with
      | none => none
      | some tail => some (planesOf t (deltas 0 (chanValues t vs)) ++ tail)

/-- Take exactly `k` bytes off the scratch buffer; `none` models the
`notEnoughData` cursor check (lines 447-448/473-474/497-498). -/
def splitExact (k : Nat) (l : List Nat) : Option (List Nat × List Nat) :=
  if k ≤ l.length then some (l.take k, l.drop k) else none

/-- Gather the per-sample difference words from the byte planes of one
channel row.  The shift amounts are those of the uncompressor: UINT uses
24/16/8/0 (lines 452-455), HALF uses 8/0 (lines 478-479), FLOAT uses
24/16/8 (lines 502-504) — note FLOAT re-aligns the 24-bit difference to
the high bytes, leaving the low byte zero. -/
def gatherDiffs (t : PixelType) (n : Nat) (chunk : List Nat) : List Nat :=
  match t with
  | PixelType.UINT =>
      (List.range n).map (fun j =>
        ((chunk.getD j 0 % 256) <<< 24) ||| ((chunk.getD (n + j) 0 % 256) <<< 16) |||
        ((chunk.getD (2*n + j) 0 % 256) <<< 8) ||| (chunk.getD (3*n + j) 0 % 256))
  | PixelType.HALF =>
      (List.range n).map (fun j =>
        ((chunk.getD j 0 % 256) <<< 8) ||| (chunk.getD (n + j) 0 % 256))
  | PixelType.FLOAT =>
      (List.range n).map (fun j =>
        ((chunk.getD j 0 % 256) <<< 24) ||| ((chunk.getD (n + j) 0 % 256) <<< 16) |||
        ((chunk.getD (2*n + j) 0 % 256) <<< 8))

/-- Serialize one reconstructed sample: UINT writes the 4 accumulator
bytes, HALF writes `setBits((unsigned short) pixel)` (the low 16 bits),
FLOAT writes the 4 accumulator bytes. -/
def outWrite : PixelType → Nat → List Nat
  | PixelType.UINT, p => writeLE 4 p
  | PixelType.HALF, p => writeLE 2 (p % 2^16)
  | PixelType.FLOAT, p => writeLE 4 p

/-- `pixel += diff` accumulation (32-bit wraparound, `pixel` initialized
to 0 per channel row) followed by the per-sample write. -/
def accumOut (t : PixelType) : Nat → List Nat → List Nat
  | _, [] => []
  | pixel, dv :: ds =>
    let p := (pixel + dv) % 2^32
    outWrite t p ++ accumOut t p ds

/-- Uncompress-side traversal: split the inflated scratch bytes into the
channel-row plane blocks (erroring like `notEnoughData` on overshoot and
`tooMuchData` on leftover bytes) and reconstruct the output stream. -/
def unSegs : List (PixelType × Nat) → List Nat → Option (List Nat)
  | [], tmp => if tmp = [] then some [] else none
  | (t, n) :: rest, tmp =>
    match splitExact (numPlanes t * n) tmp with
    | none => none
    | some (chunk, tmp1) =>
      match unSegs rest tmp1 with
      | none => none
      | some tail => some (accumOut t 0 (gatherDiffs t n chunk) ++ tail)

/-- A channel as the compressor consumes it (name is irrelevant to the
codec): sample type and subsampling factors. -/
structure Chan where
  type : PixelType
  xSampling : Nat
  ySampling : Nat

/-- The traversal schedule shared by compress and uncompress: for each
scan line `y` in `[minY, maxY]` and each channel in list order, skip the
channel when `modp (y, ySampling) ≠ 0`, otherwise process
`numSamples (xSampling, minX, maxX)` samples.  `modp` and `numSamples`
live in Imath/ImfMisc, which are not part of the sampled sources; since
compress (lines 272-283) and uncompress (lines 421-432) evaluate them on
identical arguments, they are abstracted here as the parameters `active`
and `nsamp`, and the round-trip theorems quantify over them. -/
def blockSegs (channels : List Chan) (minY maxY : Int)
    (active : Chan → Int → Bool) (nsamp : Chan → Nat) : List (PixelType × Nat) :=
  ((List.range (maxY + 1 - minY).toNat).map (fun k => minY + k)).flatMap
    (fun y => channels.filterMap (fun c => if active c y then some (c.type, nsamp c) else none))

/-- `Pxr24Compressor::compress` with the deflate call abstracted away
(`inSize == 0` short-circuits without touching the backend, line 259). -/
def pxr24Compress (segs : List (PixelType × Nat)) (input : List Nat) : Option (List Nat) :=
  if input = [] then some [] else compressSegs segs input

/-- `Pxr24Compressor::uncompress` with the inflate call abstracted away
(`inSize == 0` short-circuits, line 395). -/
def pxr24Uncompress (segs : List (PixelType × Nat)) (tmp : List Nat) : Option (List Nat) :=
  if tmp = [] then some [] else unSegs segs tmp

/-! ## FastHuf: table construction (ImfFastHuf.cpp, constructor lines
66-285 and buildTables lines 345-436)

The constructor first parses the 6-bit code-length stream.  That parse
(lines 131-193) can only record literal lengths `1..58` per symbol (the
values `59..63` encode zero runs), so the tables are modelled as
functions of the decoded per-symbol length list `lens` (one entry per
symbol in `[minSymbol, maxSymbol]`, entry `0` meaning "no code"); every
code-book accepted by the parse corresponds to exactly one such list
with all entries `≤ MAX_CODE_LEN`. -/

def MAX_CODE_LEN : Nat := 58

def TABLE_LOOKUP_BITS : Nat := 12

/-- The all-ones `uint64_t` used as the "unused length" marker. -/
def SENTINEL : Nat := 2^64 - 1

/-- `codeCount[L]`: number of symbols whose code length is `L`
(incremented at line 191 only for nonzero lengths). -/
def codeCount (lens : List Nat) (L : Nat) : Nat :=
  if L = 0 then 0 else lens.count L

/-- `_minCodeLength`: running minimum over nonzero lengths, initialized
to 255 (lines 75, 185-186). -/
def minCodeLen (lens : List Nat) : Nat :=
  lens.foldl (fun m l => if l ≠ 0 ∧ l < m then l else m) 255

/-- `_maxCodeLength`: running maximum over nonzero lengths, initialized
to 0 (lines 76, 188-189). -/
def maxCodeLen (lens : List Nat) : Nat :=
  lens.foldl (fun m l => if l ≠ 0 ∧ m < l then l else m) 0

/-- The `symbols` vector: symbols with nonzero code length in discovery
order, paired with their length (line 183; `minSym` is the caller's
`minSymbol`). -/
def symbolsOf (minSym : Nat) : List Nat → List (Nat × Nat)
  | [] => []
  | l :: rest =>
    if l ≠ 0 then (minSym, l) :: symbolsOf (minSym + 1) rest
    else symbolsOf (minSym + 1) rest

/-- `_numSymbols`: the sum of `codeCount[0 .. MAX_CODE_LEN - 1]` — the
loop at lines 195-196 runs `i < MAX_CODE_LEN` and so excludes
`codeCount[MAX_CODE_LEN]`. -/
def numSymbolsOf (lens : List Nat) : Nat :=
  ((List.range MAX_CODE_LEN).map (codeCount lens)).sum

/-- The `offset` recurrence (lines 234-237): `offset[maxCodeLen] = 0`,
`offset[i] = offset[i+1] + codeCount[i+1]` for `i` from `maxCodeLen - 1`
down to `minCodeLen`; all other entries stay 0.  `fuel` counts the
remaining recurrence steps (`maxCodeLen - L`), making the upward
recursion structural. -/
def offAux (lens : List Nat) : Nat → Nat → Nat
  | 0, _ => 0
  | fuel + 1, L =>
    if minCodeLen lens ≤ L ∧ L < maxCodeLen lens then
      offAux lens fuel (L + 1) + codeCount lens (L + 1)
    else 0

def offsetTbl (lens : List Nat) (L : Nat) : Nat :=
  offAux lens (maxCodeLen lens - L) L

/-- Largest `e ≤ fuel` with `2^e ≤ n` (0 if none): the binade exponent
used to model double-precision rounding.  For `1 ≤ n < 2^128` this is
`⌊log2 n⌋`. -/
def floorLog2Aux (n : Nat) : Nat → Nat
  | 0 => 0
  | e + 1 => if 2^(e+1) ≤ n then e + 1 else floorLog2Aux n e

def floorLog2 (n : Nat) : Nat := floorLog2Aux n 127

/-- Round a natural number to 53 significant bits, ties to even: the
value of an IEEE-754 double holding `n` (for `n < 2^128`; overflow is
far out of range here).  The `base` computation at lines 205-227 runs in
`double`, so every addition and multiplication is rounded this way. -/
def rnd53 (n : Nat) : Nat :=
  if n < 2^53 then n
  else
    let u := 2^(floorLog2 n - 52)
    let q := n / u
    let r := n % u
    if 2 * r < u then q * u
    else if u < 2 * r then (q + 1) * u
    else (if q % 2 = 0 then q else q + 1) * u

/-- `countTmp[k] = (double)codeCount[k] * (double)(2ll << (maxCodeLen - k))`
(lines 208-212): the exact product is `codeCount[k] * 2^(maxCodeLen-k+1)`,
rounded to double precision. -/
def countTmp (lens : List Nat) (k : Nat) : Nat :=
  rnd53 (codeCount lens k * 2^(maxCodeLen lens - k + 1))

/-- The double-precision running sum `tmp += countTmp[k]` for
`k = L+1 .. maxCodeLen` (lines 216-219); every `+=` rounds. -/
def dblSum (lens : List Nat) (L : Nat) : Nat :=
  (List.range' (L + 1) (maxCodeLen lens - L)).foldl
    (fun acc k => rnd53 (acc + countTmp lens k)) 0

/-- `⌈a / b⌉` on naturals. -/
def ceilDivN (a b : Nat) : Nat := (a + b - 1) / b

/-- `base[L]` after the closed-form loop (lines 205-227): for every `L`
in `[minCodeLen, maxCodeLen]` (zero-count lengths included) the loop
stores `ceil(dblSum / 2^(maxCodeLen-L+1))`; the final division by a power
of two and the `ceil` are exact in double, so only `dblSum` carries
rounding.  Lengths outside the loop range keep the all-ones sentinel from
the initialization at line 113. -/
def baseTbl (lens : List Nat) (L : Nat) : Nat :=
  if minCodeLen lens ≤ L ∧ L ≤ maxCodeLen lens then
    ceilDivN (dblSum lens L) (2^(maxCodeLen lens - L + 1))
  else SENTINEL

/-- The exact closed form claimed by the specification:
`ceil( Σ_{k>L} codeCount[k] * 2^(maxCodeLen-k) / 2^(maxCodeLen-L) )`.
This definition follows the spec's words, for comparison with the
source-derived `baseTbl`. -/
def exactBaseSpec (lens : List Nat) (L : Nat) : Nat :=
  ceilDivN
    (((List.range' (L + 1) (maxCodeLen lens - L)).map
      (fun k => codeCount lens k * 2^(maxCodeLen lens - k))).sum)
    (2^(maxCodeLen lens - L))

/-- The exact (unrounded) value of the sum the double code accumulates. -/
def exactSumTmp (lens : List Nat) (L : Nat) : Nat :=
  ((List.range' (L + 1) (maxCodeLen lens - L)).map
    (fun k => codeCount lens k * 2^(maxCodeLen lens - k + 1))).sum

/-- `_ljBase[i]` (buildTables lines 352-366): `base[i] << (64 - i)` as a
`uint64_t` for used lengths, the sentinel otherwise. -/
def ljBase (lens : List Nat) (L : Nat) : Nat :=
  if baseTbl lens L ≠ SENTINEL then (baseTbl lens L <<< (64 - L)) % 2^64 else SENTINEL

/-- `_ljOffset[i] = offset[i] - (_ljBase[i] >> (64 - i))` in `uint64_t`
arithmetic, with the special case `_ljOffset[0] = offset[0] - _ljBase[0]`
(lines 375-377). -/
def ljOffset (lens : List Nat) (L : Nat) : Nat :=
  if L = 0 then
    (((offsetTbl lens 0 : Int) - (ljBase lens 0 : Int)) % (2^64 : Int)).toNat
  else
    (((offsetTbl lens L : Int) - ((ljBase lens L >>> (64 - L) : Nat) : Int)) % (2^64 : Int)).toNat

/-- The `mapping` cursor array before the id→symbol fill (lines 248-252):
`-1` (all-ones) everywhere, `offset[i]` for `i` in
`[minCodeLen, maxCodeLen]`. -/
def mapping0 (lens : List Nat) (L : Nat) : Nat :=
  if minCodeLen lens ≤ L ∧ L ≤ maxCodeLen lens then offsetTbl lens L else SENTINEL

/-- The id→symbol fill loop (lines 254-270): for each recorded
(symbol, length) in discovery order, fail with `InvalidTable` when
`mapping[length] ≥ _numSymbols`, otherwise store the symbol at id
`mapping[length]` and advance that cursor. -/
def fillIds (numSym : Nat) : List (Nat × Nat) → (Nat → Nat) → (Nat → Nat) → Option (Nat → Nat)
  | [], _, idTo => some idTo
  | (sym, len) :: rest, mp, idTo =>
    if numSym ≤ mp len then none
    else
      fillIds numSym rest (fun L => if L = len then mp len + 1 else mp L)
        (fun j => if j = mp len then sym else idTo j)

def idToSymbolOf (minSym : Nat) (lens : List Nat) : Option (Nat → Nat) :=
  fillIds (numSymbolsOf lens) (symbolsOf minSym lens) (mapping0 lens) (fun _ => 0)

/-- The scan of the acceleration-table build (lines 391-409) and, with a
different starting point, of the decode fallback: the first `L` starting
at `L0` with `_ljBase[L] ≤ v`, scanning while `L ≤ maxCodeLen`.  `fuel`
is the remaining number of scan steps. -/
def firstLenAux (lens : List Nat) (v : Nat) : Nat → Nat → Option Nat
  | 0, _ => none
  | fuel + 1, L => if ljBase lens L ≤ v then some L else firstLenAux lens v fuel (L + 1)

/-- The smallest `L` in `[minCodeLen, maxCodeLen]` with `_ljBase[L] ≤ v`. -/
def firstLen (lens : List Nat) (v : Nat) : Option Nat :=
  firstLenAux lens v (maxCodeLen lens + 1 - minCodeLen lens) (minCodeLen lens)

/-- One entry of the acceleration table (lines 384-410): probe
`value = i << (64 - TABLE_LOOKUP_BITS)`, find the first matching length,
compute the id and look the symbol up; `none` models the `InvalidTable`
throw when the id overruns, `some (0, 0xffff)` is the untouched default
entry when no length matches. -/
def accEntryOf (lens : List Nat) (idTo : Nat → Nat) (i : Nat) : Option (Nat × Nat) :=
  match firstLen lens (i <<< (64 - TABLE_LOOKUP_BITS)) with
  | none => some (0, 0xffff)
  | some L =>
    let id := (ljOffset lens L + ((i <<< (64 - TABLE_LOOKUP_BITS)) >>> (64 - L))) % 2^64
    if id < numSymbolsOf lens then some (L, idTo id) else none

/-- The `minIdx` loop computing `_tableMin` (lines 418-435): walk down
from `TABLE_LOOKUP_BITS` past sentinel entries (the `minIdx < 0` branch
in the source is dead — the loop stops at 0). -/
def minIdxLoop (lens : List Nat) : Nat → Nat
  | 0 => 0
  | m + 1 => if ljBase lens (m + 1) = SENTINEL then minIdxLoop lens m else m + 1

def tableMinOf (lens : List Nat) : Nat :=
  ljBase lens (minIdxLoop lens TABLE_LOOKUP_BITS)

/-- The decoder state after a successful construction: everything the
decode loop reads. -/
structure FHD where
  rleSymbol : Nat
  numSymbols : Nat
  minCodeLength : Nat
  maxCodeLength : Nat
  ljBase : Nat → Nat
  ljOffset : Nat → Nat
  idToSymbol : Nat → Nat
  tableCodeLen : Nat → Nat
  tableSymbol : Nat → Nat
  tableMin : Nat

def mkFHD (rleSym : Nat) (lens : List Nat) (idTo : Nat → Nat) : FHD :=
  { rleSymbol := rleSym
    numSymbols := numSymbolsOf lens
    minCodeLength := minCodeLen lens
    maxCodeLength := maxCodeLen lens
    ljBase := ljBase lens
    ljOffset := ljOffset lens
    idToSymbol := idTo
    tableCodeLen := fun i => ((accEntryOf lens idTo i).getD (0, 0xffff)).1
    tableSymbol := fun i => ((accEntryOf lens idTo i).getD (0, 0xffff)).2
    tableMin := tableMinOf lens }

/-- The whole constructor after the length parse: fill the id→symbol
array (throwing `InvalidTable` on cursor overflow) and build all
`2^TABLE_LOOKUP_BITS` acceleration entries (throwing on id overrun).
The guard `lens.all (· ≤ MAX_CODE_LEN)` records what the 6-bit parse
guarantees about the decoded lengths. -/
def buildDecoder (minSym rleSym : Nat) (lens : List Nat) : Option FHD :=
  if lens.all (fun l => decide (l ≤ MAX_CODE_LEN)) then
    match idToSymbolOf minSym lens with
    | none => none
    | some idTo =>
      if (List.range (2^TABLE_LOOKUP_BITS)).all
          (fun i => (accEntryOf lens idTo i).isSome) then
        some (mkFHD rleSym lens idTo)
      else none
  else none

/-! ## FastHuf: payload decode (ImfFastHuf.cpp, lines 463-543 refill and
579-772 decode)

The source bytes are modelled as a function `Nat → Nat` (each read is
taken `% 256`); `bufNB`/`backNB` are the C `int` bit counters (they may
go negative, hence `Int`); shift amounts computed as `64 - numBits` are
clamped at 0 by `Int.toNat` (the C code would shift by a negative amount
there, which is undefined behaviour). -/

inductive HufErr
  | insufficientBits
  | invalidSymbol
  | rleBeforeFirst
  | rleOverrun
  | rleInvalid
  | trailingData
  | outOfFuel
deriving DecidableEq

structure BitSt where
  buffer : Nat
  bufNB : Int
  back : Nat
  backNB : Int
  pos : Nat
  bitsLeft : Nat
deriving DecidableEq

/-- `READ64`: 8 bytes, big-endian (lines 306-309). -/
def read64 (src : Nat → Nat) (p : Nat) : Nat :=
  ((src p % 256) <<< 56) ||| ((src (p+1) % 256) <<< 48) ||| ((src (p+2) % 256) <<< 40) |||
  ((src (p+3) % 256) <<< 32) ||| ((src (p+4) % 256) <<< 24) ||| ((src (p+5) % 256) <<< 16) |||
  ((src (p+6) % 256) <<< 8) ||| (src (p+7) % 256)

/-- The byte-wise tail pack of `refill` (lines 498-521): shift in whole
bytes MSB-first while bits remain, zero-padding the rest.  Called only
with `bits < 64`, so at most 8 bytes are consumed (`fuel = 8`). -/
def packRemAux (src : Nat → Nat) : Nat → Nat → Nat → Nat → Nat
  | 0, _, _, _ => 0
  | fuel + 1, pos, shift, bits =>
    if bits = 0 then 0
    else ((src pos % 256) <<< shift) ||| packRemAux src fuel (pos + 1) (shift - 8) (bits - 8)

def packRem (src : Nat → Nat) (pos bits : Nat) : Nat :=
  packRemAux src 8 pos 56 bits

/-- `FastHufDecoder::refill` (lines 463-543): top up `buffer` from the
top of `back`, pulling a fresh big-endian word (or the zero-padded tail)
from the stream if `back` runs short, and shift `back` past the consumed
bits, guarding the 64-bit shift.  The caller resets `bufNB` itself. -/
def refill (src : Nat → Nat) (numBits : Int) (st : BitSt) : BitSt :=
  let buf1 := st.buffer ||| (st.back >>> (64 - numBits).toNat)
  if st.backNB < numBits then
    let nb1 := numBits - st.backNB
    let st1 :=
      if 64 ≤ st.bitsLeft then
        { st with buffer := buf1, back := read64 src st.pos, backNB := 64,
                  pos := st.pos + 8, bitsLeft := st.bitsLeft - 64 }
      else
        { st with buffer := buf1, back := packRem src st.pos st.bitsLeft, backNB := 64,
                  pos := st.pos + (st.bitsLeft + 7) / 8, bitsLeft := 0 }
    let buf2 := st1.buffer ||| (st1.back >>> (64 - nb1).toNat)
    if st1.backNB ≤ nb1 then
      { st1 with buffer := buf2, back := 0, backNB := st1.backNB - nb1 }
    else
      { st1 with buffer := buf2, back := (st1.back <<< nb1.toNat) % 2^64,
                 backNB := st1.backNB - nb1 }
  else
    if st.backNB ≤ numBits then
      { st with buffer := buf1, back := 0, backNB := st.backNB - numBits }
    else
      { st with buffer := buf1, back := (st.back <<< numBits.toNat) % 2^64,
                backNB := st.backNB - numBits }

/-- A refill to a full 64-bit buffer, as every decode call site performs
(`refill (buffer, 64 - bufferNumBits, ...)` then `bufferNumBits = 64`). -/
def refillFull (src : Nat → Nat) (st : BitSt) : BitSt :=
  { refill src (64 - st.bufNB) st with bufNB := 64 }

/-- Consume `cl` bits: `buffer <<= cl; bufferNumBits -= cl`
(lines 691-692 and 740-741). -/
def consumeBits (cl : Nat) (st : BitSt) : BitSt :=
  { st with buffer := (st.buffer <<< cl) % 2^64, bufNB := st.bufNB - (cl : Int) }

/-- The brute-force search of the decode loop (lines 664-667): starting
at `TABLE_LOOKUP_BITS + 1`, advance while `_ljBase[codeLen] > buffer`
and `codeLen ≤ maxCodeLength`.  `fuel = maxCodeLength + 1` bounds the
scan; surplus fuel is harmless since the loop condition stops it. -/
def searchAux (d : FHD) (buffer : Nat) : Nat → Nat → Nat
  | 0, cl => cl
  | fuel + 1, cl =>
    if buffer < d.ljBase cl ∧ cl ≤ d.maxCodeLength then searchAux d buffer fuel (cl + 1)
    else cl

def searchLen (d : FHD) (buffer : Nat) : Nat :=
  searchAux d buffer (d.maxCodeLength + 1) (TABLE_LOOKUP_BITS + 1)

/-- Resolve the next `(codeLen, symbol)` (lines 630-685): the table path
when `_tableMin ≤ buffer`, otherwise refill to 64 bits and search,
failing `InvalidSymbol` when no length matches or the id overruns. -/
def decodeSym (d : FHD) (src : Nat → Nat) (st : BitSt) : Except HufErr (Nat × Nat × BitSt) :=
  if d.tableMin ≤ st.buffer then
    let idx := st.buffer >>> (64 - TABLE_LOOKUP_BITS)
    Except.ok (d.tableCodeLen idx, d.tableSymbol idx, st)
  else
    let st1 := if st.bufNB < 64 then refillFull src st else st
    let cl := searchLen d st1.buffer
    if d.maxCodeLength < cl then Except.error HufErr.invalidSymbol
    else
      let id := (d.ljOffset cl + (st1.buffer >>> (64 - cl))) % 2^64
      if id < d.numSymbols then Except.ok (cl, d.idToSymbol id, st1)
      else Except.error HufErr.invalidSymbol

/-- Ensure at least 8 bits before reading an RLE count (lines 703-713). -/
def rleRefill (src : Nat → Nat) (st : BitSt) : BitSt :=
  if st.bufNB < 8 then refillFull src st else st

/-- The tail refill keeping at least `TABLE_LOOKUP_BITS` valid bits
(lines 754-764). -/
def tailRefill (src : Nat → Nat) (st : BitSt) : BitSt :=
  if st.bufNB < (TABLE_LOOKUP_BITS : Int) then refillFull src st else st

/-- The RLE write loop `dst[dstIdx + i] = dst[dstIdx - 1]` for
`i < cnt` (lines 735-736), as a pointwise update. -/
def writeRun (dst : Nat → Nat) (start cnt v : Nat) : Nat → Nat :=
  fun j => if start ≤ j ∧ j < start + cnt then v else dst j

/-- The decode loop (lines 615-765).  `fuel` bounds the number of
iterations; since every iteration either errors or advances `dstIdx` by
at least 1 (the RLE count is checked nonzero), `fuel = numDst` never
runs out — `outOfFuel` is an artifact of making the recursion structural
and is unreachable from `hufDecode`. -/
def decodeLoop (d : FHD) (src : Nat → Nat) (numDst : Nat) :
    Nat → BitSt → Nat → (Nat → Nat) → Option HufErr × BitSt × Nat × (Nat → Nat)
  | fuel, st, dstIdx, dst =>
    if numDst ≤ dstIdx then (none, st, dstIdx, dst)
    else
      match fuel with
      | 0 => (some HufErr.outOfFuel, st, dstIdx, dst)
      | fuel + 1 =>
        match decodeSym d src st with
        | Except.error e => (some e, st, dstIdx, dst)
        | Except.ok (cl, sym, stA) =>
          let stB := consumeBits cl stA
          if sym = d.rleSymbol then
            let stC := rleRefill src stB
            let cnt := stC.buffer >>> 56
            if dstIdx < 1 then (some HufErr.rleBeforeFirst, stC, dstIdx, dst)
            else if numDst < dstIdx + cnt then (some HufErr.rleOverrun, stC, dstIdx, dst)
            else if cnt = 0 then (some HufErr.rleInvalid, stC, dstIdx, dst)
            else
              decodeLoop d src numDst fuel (tailRefill src (consumeBits 8 stC)) (dstIdx + cnt)
                (writeRun dst dstIdx cnt (dst (dstIdx - 1)))
          else
            decodeLoop d src numDst fuel (tailRefill src stB) (dstIdx + 1)
              (fun j => if j = dstIdx then sym else dst j)

/-- `FastHufDecoder::decode` (lines 579-772): require 128 payload bits,
prime `buffer`/`bufferBack` from the first two big-endian words, run the
loop, and fail `TrailingData` when payload bits remain. -/
def hufDecode (d : FHD) (src : Nat → Nat) (numSrcBits : Nat) (numDst : Nat)
    (dst0 : Nat → Nat) : Option HufErr × (Nat → Nat) :=
  if numSrcBits < 128 then (some HufErr.insufficientBits, dst0)
  else
    let st0 : BitSt := { buffer := read64 src 0, bufNB := 64, back := read64 src 8,
                         backNB := 64, pos := 16, bitsLeft := numSrcBits - 128 }
    match decodeLoop d src numDst numDst st0 0 dst0 with
    | (some e, _, _, dst) => (some e, dst)
    | (none, st, _, dst) =>
      if st.bitsLeft ≠ 0 then (some HufErr.trailingData, dst) else (none, dst)

/-! Concrete instances used by the end-to-end theorems: the two-symbol
code book `{5 ↦ length 1, 7 ↦ length 1}` over symbols `0..7` with
`rleSymbol = 7`, and the 16-byte payload `0x40 0xC0 0x00 ...` encoding
symbol 5, symbol 7, count byte 3. -/

def lensC8 : List Nat := [0, 0, 0, 0, 0, 1, 0, 1]

def idToC8 : Nat → Nat := (idToSymbolOf 0 lensC8).getD (fun _ => 0)

def fhdC8 : FHD := mkFHD 7 lensC8 idToC8

def srcC8 : Nat → Nat := fun i => if i = 0 then 0x40 else if i = 1 then 0xC0 else 0

/-! ## Bit-arithmetic helper lemmas -/

lemma andLow (x k : Nat) : x &&& (2^k - 1) = x % 2^k := by
  apply Nat.eq_of_testBit_eq
  intro i
  by_cases h : i < k <;>
    simp [Nat.testBit_and, Nat.testBit_mod_two_pow, Nat.testBit_two_pow_sub_one, h]

lemma andMid (x b w : Nat) : x &&& ((2^w - 1) <<< b) = (x / 2^b % 2^w) * 2^b := by
  apply Nat.eq_of_testBit_eq
  intro i
  rw [Nat.testBit_and, Nat.testBit_shiftLeft, ← Nat.shiftLeft_eq, Nat.testBit_shiftLeft,
      Nat.testBit_mod_two_pow, ← Nat.shiftRight_eq_div_pow, Nat.testBit_shiftRight,
      Nat.testBit_two_pow_sub_one]
  by_cases h : b ≤ i
  · have h2 : b + (i - b) = i := by omega
    simp [h, h2, Bool.and_comm, Bool.and_left_comm, ge_iff_le]
  · simp [h, ge_iff_le]

lemma orAddMul (p k y : Nat) (h : y < 2^k) : (p * 2^k) ||| y = p * 2^k + y := by
  apply Nat.eq_of_testBit_eq
  intro i
  rw [Nat.testBit_or, ← Nat.shiftLeft_eq, Nat.testBit_shiftLeft, Nat.shiftLeft_eq,
      Nat.mul_comm, Nat.testBit_mul_pow_two_add p h]
  by_cases hik : i < k
  · have h3 : ¬ (k ≤ i) := by omega
    simp [hik, h3, ge_iff_le]
  · have h2 : y.testBit i = false :=
      Nat.testBit_eq_false_of_lt (lt_of_lt_of_le h (Nat.pow_le_pow_right (by norm_num) (by omega)))
    simp [hik, h2, ge_iff_le, (by omega : k ≤ i)]

lemma andBit (x k : Nat) : x &&& 2^k = (x / 2^k % 2) * 2^k := by
  have h := andMid x k 1
  norm_num at h
  rw [Nat.shiftLeft_eq, Nat.one_mul] at h
  exact h

lemma orAddDvd (x y k : Nat) (hx : 2^k ∣ x) (h : y < 2^k) : x ||| y = x + y := by
  obtain ⟨p, rfl⟩ := hx
  rw [Nat.mul_comm]
  exact orAddMul p k y h

lemma mask_sign (u : Nat) : u &&& 0x80000000 = u / 0x80000000 % 2 * 0x80000000 := by
  have h := andBit u 31
  norm_num at h
  exact h

lemma mask_exp (u : Nat) : u &&& 0x7f800000 = u / 0x800000 % 256 * 0x800000 := by
  have h := andMid u 23 8
  rw [Nat.shiftLeft_eq] at h
  norm_num at h
  exact h

lemma mask_sig (u : Nat) : u &&& 0x007fffff = u % 0x800000 := by
  have h := andLow u 23
  norm_num at h
  exact h

lemma mask_round (m : Nat) : m &&& 0x00000080 = m / 128 % 2 * 128 := by
  have h := andBit m 7
  norm_num at h
  exact h


/-- `floatToFloat24` expressed through the sign, exponent and significand
fields of the input pattern. -/
lemma floatToFloat24_arith (u : Nat) :
    floatToFloat24 u = f24A (u / 2^31 % 2) (u / 2^23 % 2^8) (u % 2^23) := by
  have hc23 : u % 0x800000 < 0x800000 := Nat.mod_lt _ (by norm_num)
  have ha2 : u / 0x80000000 % 2 < 2 := Nat.mod_lt _ (by norm_num)
  have hb256 : u / 0x800000 % 256 < 256 := Nat.mod_lt _ (by norm_num)
  simp only [floatToFloat24, f24A]
  rw [mask_exp, mask_sig, mask_sign, mask_round]
  simp only [Nat.shiftRight_eq_div_pow]
  norm_num
  set a := u / 0x80000000 % 2 with ha
  set b := u / 0x800000 % 256 with hb
  set c := u % 0x800000 with hc
  have hdvd23 : ∀ p : Nat, (2^23 : Nat) ∣ p * 8388608 := fun p =>
    (by norm_num : (2^23 : Nat) ∣ 8388608).mul_left p
  rw [orAddDvd (b * 8388608) c 23 (hdvd23 b) (by omega)]
  rw [show a * 2147483648 / 256 = a * 8388608 by omega]
  by_cases hb255 : b = 255
  · rw [if_pos (by omega)]
    by_cases hcz : c = 0
    · rw [if_pos hcz, if_pos hb255, if_pos hcz]
      rw [show b * 8388608 / 256 = 8355840 by omega]
      rw [orAddDvd (a * 8388608) 8355840 23 (hdvd23 a) (by norm_num)]
    · rw [if_neg hcz, if_pos hb255, if_neg hcz]
      rw [show b * 8388608 / 256 = 8355840 by omega]
      rw [orAddDvd 8355840 (c / 256) 15 (by norm_num) (by omega)]
      by_cases hm8 : c / 256 = 0
      · rw [if_pos hm8, hm8]
        rw [orAddDvd (8355840 + 0) 1 15 (by norm_num) (by norm_num)]
        rw [orAddDvd (a * 8388608) (8355840 + 0 + 1) 23 (hdvd23 a) (by norm_num)]
      · rw [if_neg hm8, Nat.or_zero]
        rw [orAddDvd (a * 8388608) (8355840 + c / 256) 23 (hdvd23 a) (by omega)]
        omega
  · rw [if_neg (by omega)]
    by_cases hover : 8355840 ≤ (b * 8388608 + c + c / 128 % 2 * 128) / 256
    · rw [if_pos hover, if_neg hb255]
      rw [orAddDvd (a * 8388608) ((b * 8388608 + c) / 256) 23 (hdvd23 a) (by omega)]
    · rw [if_neg hover, if_neg hb255]
      rw [orAddDvd (a * 8388608) ((b * 8388608 + c + c / 128 % 2 * 128) / 256) 23 (hdvd23 a)
            (by omega)]


/-- Claim C3: float24 special-value preservation.  For every 32-bit input
pattern: an infinity decodes to an infinity of the same sign; a NaN
decodes to a NaN (never an infinity); and no finite input decodes to a
pattern whose exponent field is all ones (the mask operations already
constrain every field, so no bound on `u` is required). -/
theorem float24_special_values (u : Nat) :
    (isInf32 u →
      isInf32 (float24Decode (floatToFloat24 u)) ∧
      float24Decode (floatToFloat24 u) &&& 0x80000000 = u &&& 0x80000000) ∧
    (isNaN32 u → isNaN32 (float24Decode (floatToFloat24 u))) ∧
    (¬ isInf32 u → ¬ isNaN32 u →
      float24Decode (floatToFloat24 u) &&& 0x7f800000 ≠ 0x7f800000) := by
  have hb256 : u / 8388608 % 256 < 256 := Nat.mod_lt _ (by norm_num)
  have hc23 : u % 8388608 < 8388608 := Nat.mod_lt _ (by norm_num)
  have ha2 : u / 2147483648 % 2 < 2 := Nat.mod_lt _ (by norm_num)
  have harith := floatToFloat24_arith u
  rw [show u / 2^31 % 2 = u / 2147483648 % 2 by norm_num,
      show u / 2^23 % 2^8 = u / 8388608 % 256 by norm_num,
      show u % 2^23 = u % 8388608 by norm_num] at harith
  refine ⟨fun hInf => ?_, fun hNaN => ?_, fun hnInf hnNaN => ?_⟩
  · obtain ⟨h1, h2⟩ := hInf
    rw [mask_exp] at h1
    rw [mask_sig] at h2
    have hb : u / 8388608 % 256 = 255 := by omega
    refine ⟨⟨?_, ?_⟩, ?_⟩ <;>
      simp only [float24Decode, Nat.shiftLeft_eq, harith, f24A, mask_exp, mask_sig, mask_sign] <;>
      rw [hb, h2] <;> norm_num <;> omega
  · obtain ⟨h1, h2⟩ := hNaN
    rw [mask_exp] at h1
    rw [mask_sig] at h2
    have hb : u / 8388608 % 256 = 255 := by omega
    refine ⟨?_, ?_⟩ <;>
      simp only [float24Decode, Nat.shiftLeft_eq, harith, f24A, mask_exp, mask_sig, mask_sign] <;>
      rw [hb] <;> norm_num <;> rw [if_neg h2] <;> split_ifs with hm8 <;> omega
  · have hbne : ¬ (u / 8388608 % 256 = 255) := by
      intro hb
      by_cases hc0 : u % 8388608 = 0
      · refine hnInf ⟨?_, ?_⟩
        · rw [mask_exp]; omega
        · rw [mask_sig]; exact hc0
      · refine hnNaN ⟨?_, ?_⟩
        · rw [mask_exp]; omega
        · rw [mask_sig]; exact hc0
    simp only [float24Decode, Nat.shiftLeft_eq, harith, f24A, mask_exp]
    rw [if_neg hbne]
    split_ifs with hover <;> norm_num <;> omega

/-- Witness for `float24_special_values`: `+Inf`, the quiet NaN
`0x7FC00001`, and the finite value `1.0f`. -/
theorem float24_special_values_witness :
    (isInf32 0x7F800000 ∧ isInf32 (float24Decode (floatToFloat24 0x7F800000))) ∧
    (isNaN32 0x7FC00001 ∧ isNaN32 (float24Decode (floatToFloat24 0x7FC00001))) ∧
    float24Decode (floatToFloat24 0x3F800000) &&& 0x7f800000 ≠ 0x7f800000 :=
  ⟨⟨⟨by decide, by decide⟩, ((float24_special_values 0x7F800000).1 ⟨by decide, by decide⟩).1⟩,
   ⟨⟨by decide, by decide⟩, (float24_special_values 0x7FC00001).2.1 ⟨by decide, by decide⟩⟩,
   (float24_special_values 0x3F800000).2.2 (fun h => absurd h.1 (by decide))
     (fun h => h.2 (by decide))⟩

/-- Counterexample to claim C7 as stated: the input `1.0f + 2^-15`
(pattern `0x3F800100`) does not decode to `1.0f`; the quantizer keeps it
exactly (15 significand bits cover `2^-15`), so nothing is rounded
away. -/
theorem pxr24_quantization_counterexample :
    floatToFloat24 0x3F800100 = 0x3F8001 ∧
    float24Decode (floatToFloat24 0x3F800100) = 0x3F800100 ∧
    float24Decode (floatToFloat24 0x3F800100) ≠ 0x3F800000 := by decide

/-- Claim C7 (amended): `floatToFloat24 1.0f = 0x3F8000` (high 16 bits
`0x3F80`, low 8 bits zero) and it decodes to `1.0f` exactly;
`1.0f + 2^-15` (pattern `0x3F800100`) encodes to `0x3F8001` and decodes
to itself — it is exactly representable in float24, not rounded to
`1.0f`; the nearby `1.0f + 2^-17` (pattern `0x3F800040`) is rounded away
and decodes to `1.0f`. -/
theorem pxr24_quantization_amended :
    floatToFloat24 0x3F800000 = 0x3F8000 ∧
    floatToFloat24 0x3F800000 >>> 8 = 0x3F80 ∧
    floatToFloat24 0x3F800000 % 256 = 0 ∧
    float24Decode (floatToFloat24 0x3F800000) = 0x3F800000 ∧
    floatToFloat24 0x3F800100 = 0x3F8001 ∧
    float24Decode (floatToFloat24 0x3F800100) = 0x3F800100 ∧
    floatToFloat24 0x3F800040 = 0x3F8000 ∧
    float24Decode (floatToFloat24 0x3F800040) = 0x3F800000 := by decide

/-! ## Pxr24 round-trip lemmas -/

lemma deltas_length (vs : List Nat) : ∀ prev, (deltas prev vs).length = vs.length := by
  induction vs with
  | nil => intro prev; rfl
  | cons v vs ih => intro prev; simp [deltas, ih]

lemma deltas_lt (vs : List Nat) : ∀ prev d, d ∈ deltas prev vs → d < 2^32 := by
  induction vs with
  | nil => intro prev d hd; simp [deltas] at hd
  | cons v vs ih =>
    intro prev d hd
    rcases List.mem_cons.mp hd with h | h
    · subst h; exact Nat.mod_lt _ (by norm_num)
    · exact ih v d h

lemma writeLE_length (k : Nat) : ∀ v, (writeLE k v).length = k := by
  induction k with
  | zero => intro v; rfl
  | succ k ih => intro v; simp [writeLE, ih]

lemma readLE_spec (k : Nat) : ∀ bs v rest, readLE k bs = some (v, rest) →
    (∀ b ∈ bs, b < 256) → v < 2^(8*k) ∧ bs = writeLE k v ++ rest := by
  induction k with
  | zero =>
    intro bs v rest h _
    simp [readLE] at h
    obtain ⟨rfl, rfl⟩ := h
    simp [writeLE]
  | succ k ih =>
    intro bs v rest h hb
    match bs, h with
    | b :: bs, h =>
      simp only [readLE] at h
      cases hr : readLE k bs with
      | none => rw [hr] at h; exact absurd h (by simp)
      | some p =>
        obtain ⟨v', rest'⟩ := p
        rw [hr] at h
        simp at h
        obtain ⟨rfl, rfl⟩ := h
        have hble : b < 256 := hb b (by simp)
        have hrec := ih bs v' rest' hr (fun x hx => hb x (by simp [hx]))
        constructor
        · have := hrec.1
          calc b % 256 + 256 * v' < 256 + 256 * v' := by omega
          _ ≤ 2^(8*(k+1)) := by rw [show 8*(k+1) = 8*k + 8 by ring, pow_add]; omega
        · rw [writeLE]
          have h1 : (b % 256 + 256 * v') % 256 = b := by omega
          have h2 : (b % 256 + 256 * v') / 256 = v' := by omega
          rw [h1, h2]
          simpa using hrec.2

lemma readPixels_spec (bps : Nat) (n : Nat) : ∀ bs vs rest,
    readPixels bps n bs = some (vs, rest) → (∀ b ∈ bs, b < 256) →
    vs.length = n ∧ (∀ v ∈ vs, v < 2^(8*bps)) ∧ bs = vs.flatMap (writeLE bps) ++ rest := by
  induction n with
  | zero =>
    intro bs vs rest h _
    simp [readPixels] at h
    obtain ⟨rfl, rfl⟩ := h
    simp
  | succ n ih =>
    intro bs vs rest h hb
    simp only [readPixels] at h
    cases hr : readLE bps bs with
    | none => rw [hr] at h; exact absurd h (by simp)
    | some p =>
      obtain ⟨v, bs1⟩ := p
      rw [hr] at h
      dsimp only at h
      cases hp : readPixels bps n bs1 with
      | none => rw [hp] at h; exact absurd h (by simp)
      | some q =>
        obtain ⟨vs', bs2⟩ := q
        rw [hp] at h
        simp at h
        obtain ⟨rfl, rfl⟩ := h
        have h1 := readLE_spec bps bs v bs1 hr hb
        have hb1 : ∀ b ∈ bs1, b < 256 := by
          intro x hx
          exact hb x (by rw [h1.2]; exact List.mem_append_right _ hx)
        have h2 := ih bs1 vs' bs2 hp hb1
        refine ⟨by simp [h2.1], ?_, ?_⟩
        · intro x hx
          rcases List.mem_cons.mp hx with rfl | hx
          · exact h1.1
          · exact h2.2.1 x hx
        · rw [h1.2, h2.2.2]
          simp

lemma getD_map_lt (f : Nat → Nat) (l : List Nat) (j : Nat) (h : j < l.length) :
    (l.map f).getD j 0 = f (l.getD j 0) := by
  rw [List.getD_eq_get?, List.getD_eq_get?, List.get?_map, List.get?_eq_get h]
  simp

lemma getD_append_lt (l1 l2 : List Nat) (j : Nat) (h : j < l1.length) :
    (l1 ++ l2).getD j 0 = l1.getD j 0 := by
  rw [List.getD_eq_get?, List.getD_eq_get?, List.get?_append h]

lemma getD_append_shift (l1 l2 : List Nat) (j : Nat) :
    (l1 ++ l2).getD (l1.length + j) 0 = l2.getD j 0 := by
  rw [List.getD_eq_get?, List.getD_eq_get?, List.get?_append_right (by omega),
      show l1.length + j - l1.length = j by omega]

lemma or2bytes (x y : Nat) (hx : x < 256) (hy : y < 256) :
    (x <<< 8) ||| y = x * 2^8 + y := by
  rw [Nat.shiftLeft_eq]
  exact orAddDvd _ _ 8 (Dvd.intro_left x rfl) (by omega)

lemma or3bytes (x y z : Nat) (hx : x < 256) (hy : y < 256) (hz : z < 256) :
    (x <<< 24) ||| (y <<< 16) ||| (z <<< 8) = x * 2^24 + y * 2^16 + z * 2^8 := by
  rw [Nat.shiftLeft_eq, Nat.shiftLeft_eq, Nat.shiftLeft_eq]
  rw [orAddDvd (x * 2^24) (y * 2^16) 24 (Dvd.intro_left x rfl) (by omega)]
  rw [orAddDvd (x * 2^24 + y * 2^16) (z * 2^8) 16
        (Nat.dvd_add ((by norm_num : (2^16 : Nat) ∣ 2^24).mul_left x) (Dvd.intro_left y rfl))
        (by omega)]

lemma or4bytes (x y z w : Nat) (hx : x < 256) (hy : y < 256) (hz : z < 256) (hw : w < 256) :
    (x <<< 24) ||| (y <<< 16) ||| (z <<< 8) ||| w = x * 2^24 + y * 2^16 + z * 2^8 + w := by
  rw [or3bytes x y z hx hy hz]
  exact orAddDvd _ _ 8
    (Nat.dvd_add (Nat.dvd_add ((by norm_num : (2^8 : Nat) ∣ 2^24).mul_left x)
      ((by norm_num : (2^8 : Nat) ∣ 2^16).mul_left y)) (Dvd.intro_left z rfl)) (by omega)

lemma planesOf_length (t : PixelType) (ds : List Nat) :
    (planesOf t ds).length = numPlanes t * ds.length := by
  cases t <;> simp [planesOf, numPlanes] <;> ring

lemma getD_eq_get_of_lt (l : List Nat) (j : Nat) (hj : j < l.length) :
    l.getD j 0 = l.get ⟨j, hj⟩ := by
  rw [List.getD_eq_get?, List.get?_eq_get hj]
  rfl

lemma gather_planes_uint (ds : List Nat) (hds : ∀ d ∈ ds, d < 2^32) :
    gatherDiffs PixelType.UINT ds.length (planesOf PixelType.UINT ds) = ds := by
  apply List.ext_get?
  intro j
  by_cases hj : j < ds.length
  · simp only [gatherDiffs, planesOf]
    rw [List.get?_map, List.get?_range hj, Option.map_some', List.get?_eq_get hj]
    congr 1
    set A := ds.map (fun d => (d >>> 24) % 256) with hA
    set B := ds.map (fun d => (d >>> 16) % 256) with hB
    set C := ds.map (fun d => (d >>> 8) % 256) with hC
    set D := ds.map (fun d => d % 256) with hD
    have hAl : A.length = ds.length := by simp [hA]
    have hBl : B.length = ds.length := by simp [hB]
    have hCl : C.length = ds.length := by simp [hC]
    have hABl : (A ++ B).length = 2 * ds.length := by simp [hA, hB]; ring
    have hABCl : (A ++ B ++ C).length = 3 * ds.length := by simp [hA, hB, hC]; ring
    have e1 : (A ++ B ++ C ++ D).getD j 0 = (ds.getD j 0 >>> 24) % 256 := by
      rw [getD_append_lt _ _ _ (by omega), getD_append_lt _ _ _ (by omega),
          getD_append_lt _ _ _ (by omega), hA, getD_map_lt _ _ _ hj]
    have e2 : (A ++ B ++ C ++ D).getD (ds.length + j) 0 = (ds.getD j 0 >>> 16) % 256 := by
      rw [getD_append_lt _ _ _ (by omega), getD_append_lt _ _ _ (by omega),
          show ds.length + j = A.length + j by rw [hAl], getD_append_shift,
          hB, getD_map_lt _ _ _ hj]
    have e3 : (A ++ B ++ C ++ D).getD (2 * ds.length + j) 0 = (ds.getD j 0 >>> 8) % 256 := by
      rw [getD_append_lt _ _ _ (by omega),
          show 2 * ds.length + j = (A ++ B).length + j by rw [hABl],
          getD_append_shift, hC, getD_map_lt _ _ _ hj]
    have e4 : (A ++ B ++ C ++ D).getD (3 * ds.length + j) 0 = ds.getD j 0 % 256 := by
      rw [show 3 * ds.length + j = (A ++ B ++ C).length + j by rw [hABCl],
          getD_append_shift, hD, getD_map_lt _ _ _ hj]
    rw [e1, e2, e3, e4]
    have hdm : ds.getD j 0 = ds.get ⟨j, hj⟩ := getD_eq_get_of_lt ds j hj
    have hdlt : ds.getD j 0 < 2^32 := by rw [hdm]; exact hds _ (ds.get_mem j hj)
    set d := ds.getD j 0 with hdd
    rw [← hdm]
    rw [or4bytes _ _ _ _ (by omega) (by omega) (by omega) (by omega)]
    simp only [Nat.shiftRight_eq_div_pow]
    have h1 : d / 2 ^ 24 % 256 % 256 = d / 2 ^ 24 % 256 := by omega
    norm_num
    omega
  · rw [List.get?_eq_none.mpr (by simp [gatherDiffs]; omega),
        List.get?_eq_none.mpr (by omega)]

lemma gather_planes_half (ds : List Nat) :
    gatherDiffs PixelType.HALF ds.length (planesOf PixelType.HALF ds) =
      ds.map (fun d => d % 2^16) := by
  apply List.ext_get?
  intro j
  by_cases hj : j < ds.length
  · simp only [gatherDiffs, planesOf]
    rw [List.get?_map, List.get?_range hj, Option.map_some', List.get?_map,
        List.get?_eq_get hj, Option.map_some']
    congr 1
    set A := ds.map (fun d => (d >>> 8) % 256) with hA
    set B := ds.map (fun d => d % 256) with hB
    have hAl : A.length = ds.length := by simp [hA]
    have e1 : (A ++ B).getD j 0 = (ds.getD j 0 >>> 8) % 256 := by
      rw [getD_append_lt _ _ _ (by omega), hA, getD_map_lt _ _ _ hj]
    have e2 : (A ++ B).getD (ds.length + j) 0 = ds.getD j 0 % 256 := by
      rw [show ds.length + j = A.length + j by rw [hAl], getD_append_shift, hB,
          getD_map_lt _ _ _ hj]
    rw [e1, e2]
    rw [getD_eq_get_of_lt ds j hj]
    set d := ds.get ⟨j, hj⟩ with hdd
    rw [or2bytes _ _ (by omega) (by omega)]
    simp only [Nat.shiftRight_eq_div_pow]
    norm_num
    omega
  · rw [List.get?_eq_none.mpr (by simp [gatherDiffs]; omega),
        List.get?_eq_none.mpr (by simp; omega)]

lemma gather_planes_float (ds : List Nat) :
    gatherDiffs PixelType.FLOAT ds.length (planesOf PixelType.FLOAT ds) =
      ds.map (fun d => d % 2^24 * 2^8) := by
  apply List.ext_get?
  intro j
  by_cases hj : j < ds.length
  · simp only [gatherDiffs, planesOf]
    rw [List.get?_map, List.get?_range hj, Option.map_some', List.get?_map,
        List.get?_eq_get hj, Option.map_some']
    congr 1
    set A := ds.map (fun d => (d >>> 16) % 256) with hA
    set B := ds.map (fun d => (d >>> 8) % 256) with hB
    set C := ds.map (fun d => d % 256) with hC
    have hAl : A.length = ds.length := by simp [hA]
    have hABl : (A ++ B).length = 2 * ds.length := by simp [hA, hB]; ring
    have e1 : (A ++ B ++ C).getD j 0 = (ds.getD j 0 >>> 16) % 256 := by
      rw [getD_append_lt _ _ _ (by omega), getD_append_lt _ _ _ (by omega), hA,
          getD_map_lt _ _ _ hj]
    have e2 : (A ++ B ++ C).getD (ds.length + j) 0 = (ds.getD j 0 >>> 8) % 256 := by
      rw [getD_append_lt _ _ _ (by omega),
          show ds.length + j = A.length + j by rw [hAl], getD_append_shift, hB,
          getD_map_lt _ _ _ hj]
    have e3 : (A ++ B ++ C).getD (2 * ds.length + j) 0 = ds.getD j 0 % 256 := by
      rw [show 2 * ds.length + j = (A ++ B).length + j by rw [hABl],
          getD_append_shift, hC, getD_map_lt _ _ _ hj]
    rw [e1, e2, e3]
    rw [getD_eq_get_of_lt ds j hj]
    set d := ds.get ⟨j, hj⟩ with hdd
    rw [or3bytes _ _ _ (by omega) (by omega) (by omega)]
    simp only [Nat.shiftRight_eq_div_pow]
    norm_num
    omega
  · rw [List.get?_eq_none.mpr (by simp [gatherDiffs]; omega),
        List.get?_eq_none.mpr (by simp; omega)]

lemma accum_uint (vs : List Nat) : ∀ prev, prev < 2^32 → (∀ v ∈ vs, v < 2^32) →
    accumOut PixelType.UINT prev (deltas prev vs) = vs.flatMap (writeLE 4) := by
  induction vs with
  | nil => intro prev _ _; simp [deltas, accumOut]
  | cons v vs ih =>
    intro prev hprev hvs
    have hv : v < 2^32 := hvs v (by simp)
    have hstep : (prev + sub32 v prev) % 2^32 = v := by
      simp only [sub32]
      omega
    simp only [deltas, accumOut, outWrite, hstep, List.flatMap_cons]
    rw [ih v hv (fun x hx => hvs x (by simp [hx]))]

lemma accum_half (vs : List Nat) : ∀ acc prev, acc < 2^32 → prev < 2^16 →
    acc % 2^16 = prev → (∀ v ∈ vs, v < 2^16) →
    accumOut PixelType.HALF acc ((deltas prev vs).map (fun d => d % 2^16)) =
      vs.flatMap (writeLE 2) := by
  induction vs with
  | nil => intro acc prev _ _ _ _; simp [deltas, accumOut]
  | cons v vs ih =>
    intro acc prev hacc hprev hinv hvs
    have hv : v < 2^16 := hvs v (by simp)
    have hstep : ((acc + sub32 v prev % 2^16) % 2^32) % 2^16 = v := by
      simp only [sub32]
      omega
    simp only [deltas, List.map_cons, accumOut, outWrite, hstep, List.flatMap_cons]
    rw [ih ((acc + sub32 v prev % 2^16) % 2^32) v (Nat.mod_lt _ (by norm_num)) hv hstep
          (fun x hx => hvs x (by simp [hx]))]

lemma accum_float (ws : List Nat) : ∀ w, w < 2^24 → (∀ x ∈ ws, x < 2^24) →
    accumOut PixelType.FLOAT (w * 2^8) ((deltas w ws).map (fun d => d % 2^24 * 2^8)) =
      ws.flatMap (fun x => writeLE 4 (x * 2^8)) := by
  induction ws with
  | nil => intro w _ _; simp [deltas, accumOut]
  | cons x ws ih =>
    intro w hw hws
    have hx : x < 2^24 := hws x (by simp)
    have hstep : (w * 2^8 + sub32 x w % 2^24 * 2^8) % 2^32 = x * 2^8 := by
      simp only [sub32]
      omega
    simp only [deltas, List.map_cons, accumOut, outWrite, hstep, List.flatMap_cons]
    rw [ih x hx (fun y hy => hws y (by simp [hy]))]

lemma floatToFloat24_lt (u : Nat) : floatToFloat24 u < 2^24 := by
  rw [floatToFloat24_arith]
  have hb : u / 2^23 % 2^8 < 256 := Nat.mod_lt _ (by norm_num)
  have hc : u % 2^23 < 2^23 := Nat.mod_lt _ (by norm_num)
  have ha : u / 2^31 % 2 < 2 := Nat.mod_lt _ (by norm_num)
  simp only [f24A]
  split_ifs <;> omega

lemma readLE_length (k : Nat) : ∀ bs v rest, readLE k bs = some (v, rest) →
    bs.length = k + rest.length := by
  induction k with
  | zero => intro bs v rest h; simp [readLE] at h; simp [h.2]
  | succ k ih =>
    intro bs v rest h
    match bs, h with
    | b :: bs, h =>
      simp only [readLE] at h
      cases hr : readLE k bs with
      | none => rw [hr] at h; exact absurd h (by simp)
      | some p =>
        obtain ⟨v', rest'⟩ := p
        rw [hr] at h
        simp at h
        obtain ⟨rfl, rfl⟩ := h
        have := ih bs v' rest' hr
        simp [this]
        omega

lemma readPixels_count (bps n : Nat) : ∀ bs vs rest,
    readPixels bps n bs = some (vs, rest) → vs.length = n := by
  induction n with
  | zero => intro bs vs rest h; simp [readPixels] at h; simp [h.1]
  | succ n ih =>
    intro bs vs rest h
    simp only [readPixels] at h
    cases hr : readLE bps bs with
    | none => rw [hr] at h; exact absurd h (by simp)
    | some p =>
      obtain ⟨v, bs1⟩ := p
      rw [hr] at h
      dsimp only at h
      cases hp : readPixels bps n bs1 with
      | none => rw [hp] at h; exact absurd h (by simp)
      | some q =>
        obtain ⟨vs', bs2⟩ := q
        rw [hp] at h
        simp at h
        obtain ⟨rfl, rfl⟩ := h
        simp [ih bs1 vs' bs2 hp]

lemma readPixels_length (bps n : Nat) : ∀ bs vs rest,
    readPixels bps n bs = some (vs, rest) → bs.length = bps * n + rest.length := by
  induction n with
  | zero => intro bs vs rest h; simp [readPixels] at h; simp [h.2]
  | succ n ih =>
    intro bs vs rest h
    simp only [readPixels] at h
    cases hr : readLE bps bs with
    | none => rw [hr] at h; exact absurd h (by simp)
    | some p =>
      obtain ⟨v, bs1⟩ := p
      rw [hr] at h
      dsimp only at h
      cases hp : readPixels bps n bs1 with
      | none => rw [hp] at h; exact absurd h (by simp)
      | some q =>
        obtain ⟨vs', bs2⟩ := q
        rw [hp] at h
        simp at h
        obtain ⟨rfl, rfl⟩ := h
        have h1 := readLE_length bps bs v bs1 hr
        have h2 := ih bs1 vs' bs2 hp
        rw [Nat.mul_succ]
        omega

lemma compressSegs_length : ∀ (segs : List (PixelType × Nat)) (input out : List Nat),
    (∀ p ∈ segs, (p : PixelType × Nat).1 ≠ PixelType.FLOAT) →
    compressSegs segs input = some out → out.length = input.length := by
  intro segs
  induction segs with
  | nil =>
    intro input out _ h
    simp [compressSegs] at h
    simp [h.1, ← h.2]
  | cons p rest ih =>
    obtain ⟨t, n⟩ := p
    intro input out hft h
    simp only [compressSegs] at h
    cases hr : readPixels (sampleBytes t) n input with
    | none => rw [hr] at h; exact absurd h (by simp)
    | some q =>
      obtain ⟨vs, input1⟩ := q
      rw [hr] at h
      dsimp only at h
      cases hc : compressSegs rest input1 with
      | none => rw [hc] at h; exact absurd h (by simp)
      | some tail =>
        rw [hc] at h
        simp at h
        subst h
        have hlen1 := readPixels_length (sampleBytes t) n input vs input1 hr
        have hlen2 := ih input1 tail (fun p hp => hft p (by simp [hp])) hc
        have hvn : vs.length = n := readPixels_count (sampleBytes t) n input vs input1 hr
        have htne : t ≠ PixelType.FLOAT := hft (t, n) (by simp)
        have hcv : (chanValues t vs).length = vs.length := by
          cases t <;> simp [chanValues]
        have hnp : numPlanes t = sampleBytes t := by
          cases t <;> first | rfl | exact absurd rfl htne
        simp only [List.length_append, planesOf_length, deltas_length, hcv, hvn, hnp, hlen2]
        omega

lemma compress_un_segs : ∀ (segs : List (PixelType × Nat)) (input out : List Nat),
    (∀ p ∈ segs, (p : PixelType × Nat).1 ≠ PixelType.FLOAT) →
    (∀ b ∈ input, b < 256) →
    compressSegs segs input = some out →
    unSegs segs out = some input := by
  intro segs
  induction segs with
  | nil =>
    intro input out _ _ h
    simp [compressSegs] at h
    obtain ⟨rfl, rfl⟩ := h
    simp [unSegs]
  | cons p rest ih =>
    obtain ⟨t, n⟩ := p
    intro input out hft hb h
    simp only [compressSegs] at h
    cases hr : readPixels (sampleBytes t) n input with
    | none => rw [hr] at h; exact absurd h (by simp)
    | some q =>
      obtain ⟨vs, input1⟩ := q
      rw [hr] at h
      dsimp only at h
      cases hc : compressSegs rest input1 with
      | none => rw [hc] at h; exact absurd h (by simp)
      | some tail =>
        rw [hc] at h
        simp at h
        subst h
        have hspec := readPixels_spec (sampleBytes t) n input vs input1 hr hb
        have hb1 : ∀ b ∈ input1, b < 256 := fun x hx =>
          hb x (by rw [hspec.2.2]; exact List.mem_append_right _ hx)
        have htail := ih input1 tail (fun p hp => hft p (by simp [hp])) hb1 hc
        have htne : t ≠ PixelType.FLOAT := hft (t, n) (by simp)
        have hvn : vs.length = n := hspec.1
        cases t with
        | FLOAT => exact absurd rfl htne
        | UINT =>
          have hcl : (planesOf PixelType.UINT (deltas 0 vs)).length = 4 * n := by
            rw [planesOf_length, deltas_length, hvn]; rfl
          simp only [unSegs, chanValues, splitExact]
          rw [if_pos (by simp only [List.length_append, hcl, numPlanes]; omega)]
          have hk : numPlanes PixelType.UINT * n = (planesOf PixelType.UINT (deltas 0 vs)).length := by
            rw [hcl]; rfl
          rw [hk, List.take_left, List.drop_left]
          dsimp only
          rw [htail]
          dsimp only
          have hgd : gatherDiffs PixelType.UINT n (planesOf PixelType.UINT (deltas 0 vs)) =
              deltas 0 vs := by
            have := gather_planes_uint (deltas 0 vs) (fun d hd => deltas_lt vs 0 d hd)
            rwa [deltas_length, hvn] at this
          rw [hgd, accum_uint vs 0 (by norm_num) (fun v hv => hspec.2.1 v hv)]
          rw [hspec.2.2]
          rfl
        | HALF =>
          have hcl : (planesOf PixelType.HALF (deltas 0 vs)).length = 2 * n := by
            rw [planesOf_length, deltas_length, hvn]; rfl
          simp only [unSegs, chanValues, splitExact]
          rw [if_pos (by simp only [List.length_append, hcl, numPlanes]; omega)]
          have hk : numPlanes PixelType.HALF * n = (planesOf PixelType.HALF (deltas 0 vs)).length := by
            rw [hcl]; rfl
          rw [hk, List.take_left, List.drop_left]
          dsimp only
          rw [htail]
          dsimp only
          have hgd : gatherDiffs PixelType.HALF n (planesOf PixelType.HALF (deltas 0 vs)) =
              (deltas 0 vs).map (fun d => d % 2^16) := by
            have := gather_planes_half (deltas 0 vs)
            rwa [deltas_length, hvn] at this
          rw [hgd, accum_half vs 0 0 (by norm_num) (by norm_num) (by norm_num)
                (fun v hv => hspec.2.1 v hv)]
          rw [hspec.2.2]
          rfl

lemma flatMap_map_aux (f : Nat → Nat) (g : Nat → List Nat) :
    ∀ l : List Nat, (l.map f).flatMap g = l.flatMap (fun x => g (f x)) := by
  intro l
  induction l with
  | nil => rfl
  | cons x l ih => simp [ih]

/-- Claim C1: Pxr24 lossless round-trip for UINT and HALF.  For every
channel list without FLOAT channels, every rectangle (entering only
through the schedule parameters, see `blockSegs`), and every input pixel
block of bytes, uncompressing the compressed block returns the input
exactly; the deflate backend is assumed to be a faithful inverse pair,
so the model composes the preprocessing with the postprocessing. -/
theorem pxr24_lossless_roundtrip (channels : List Chan) (minY maxY : Int)
    (active : Chan → Int → Bool) (nsamp : Chan → Nat) (input out : List Nat)
    (hft : ∀ c ∈ channels, c.type ≠ PixelType.FLOAT)
    (hb : ∀ b ∈ input, b < 256)
    (hc : pxr24Compress (blockSegs channels minY maxY active nsamp) input = some out) :
    pxr24Uncompress (blockSegs channels minY maxY active nsamp) out = some input := by
  by_cases hin : input = []
  · subst hin
    rw [pxr24Compress, if_pos rfl] at hc
    simp at hc
    subst hc
    rw [pxr24Uncompress, if_pos rfl]
  · rw [pxr24Compress, if_neg hin] at hc
    have hsegs : ∀ p ∈ blockSegs channels minY maxY active nsamp,
        (p : PixelType × Nat).1 ≠ PixelType.FLOAT := by
      intro p hp
      simp only [blockSegs, List.mem_flatMap, List.mem_filterMap, List.mem_map] at hp
      obtain ⟨y, _, c, hcmem, hcp⟩ := hp
      by_cases hact : active c y
      · rw [if_pos hact] at hcp
        obtain rfl := Option.some_injective _ hcp
        exact hft c hcmem
      · rw [if_neg hact] at hcp
        exact absurd hcp (by simp)
    have hlen := compressSegs_length _ _ _ hsegs hc
    have hout : out ≠ [] := by
      intro hempty
      subst hempty
      simp at hlen
      exact hin (List.length_eq_zero.mp hlen.symm)
    rw [pxr24Uncompress, if_neg hout]
    exact compress_un_segs _ _ _ hsegs hb hc

/-- Witness for `pxr24_lossless_roundtrip`: one UINT channel, one scan
line, one sample, input bytes `[1, 2, 3, 4]`. -/
theorem pxr24_lossless_roundtrip_witness :
    pxr24Compress (blockSegs [⟨PixelType.UINT, 1, 1⟩] 0 0 (fun _ _ => true) (fun _ => 1))
        [1, 2, 3, 4] = some [4, 3, 2, 1] ∧
    pxr24Uncompress (blockSegs [⟨PixelType.UINT, 1, 1⟩] 0 0 (fun _ _ => true) (fun _ => 1))
        [4, 3, 2, 1] = some [1, 2, 3, 4] :=
  ⟨by decide,
   pxr24_lossless_roundtrip [⟨PixelType.UINT, 1, 1⟩] 0 0 (fun _ _ => true) (fun _ => 1)
     [1, 2, 3, 4] [4, 3, 2, 1]
     (fun c hcm => by rcases List.mem_singleton.mp hcm with rfl; decide)
     (by decide) (by decide)⟩

/-- Claim C2: Pxr24 near-lossless round-trip for FLOAT.  For a FLOAT
channel row (any input patterns, in particular all finite floats), each
decoded output word is bitwise `floatToFloat24` of the input shifted
left by 8, and its low 8 bits are zero. -/
theorem pxr24_float_roundtrip (n : Nat) (input vs out : List Nat)
    (hb : ∀ b ∈ input, b < 256)
    (hvs : readPixels 4 n input = some (vs, []))
    (hc : compressSegs [(PixelType.FLOAT, n)] input = some out) :
    unSegs [(PixelType.FLOAT, n)] out =
      some (vs.flatMap (fun v => writeLE 4 (float24Decode (floatToFloat24 v)))) ∧
    ∀ v ∈ vs, float24Decode (floatToFloat24 v) % 256 = 0 := by
  constructor
  · simp only [compressSegs] at hc
    rw [show sampleBytes PixelType.FLOAT = 4 from rfl, hvs] at hc
    dsimp only at hc
    simp at hc
    subst hc
    have hvn : vs.length = n := readPixels_count 4 n input vs [] hvs
    set ws := vs.map floatToFloat24 with hws
    have hwsn : ws.length = n := by simp [hws, hvn]
    have hwlt : ∀ x ∈ ws, x < 2^24 := by
      intro x hx
      obtain ⟨v, _, rfl⟩ := List.mem_map.mp hx
      exact floatToFloat24_lt v
    have hcl : (planesOf PixelType.FLOAT (deltas 0 (chanValues PixelType.FLOAT vs))).length
        = 3 * n := by
      rw [planesOf_length, deltas_length]
      simp [chanValues, hvn, numPlanes]
    simp only [unSegs, splitExact]
    rw [if_pos (by simp only [List.length_append, hcl, numPlanes]; omega)]
    have hk : numPlanes PixelType.FLOAT * n
        = (planesOf PixelType.FLOAT (deltas 0 (chanValues PixelType.FLOAT vs))).length := by
      rw [hcl]; rfl
    rw [hk, List.take_length, List.drop_length]
    dsimp only
    have hgd : gatherDiffs PixelType.FLOAT n
        (planesOf PixelType.FLOAT (deltas 0 (chanValues PixelType.FLOAT vs))) =
        (deltas 0 ws).map (fun d => d % 2^24 * 2^8) := by
      have := gather_planes_float (deltas 0 ws)
      rwa [deltas_length, hwsn] at this
    rw [hgd]
    have hacc := accum_float ws 0 (by norm_num) hwlt
    rw [show (0 : Nat) * 2^8 = 0 from rfl] at hacc
    rw [hacc]
    rw [hws, flatMap_map_aux]
    simp only [float24Decode, Nat.shiftLeft_eq]
    simp
  · intro v _
    simp only [float24Decode, Nat.shiftLeft_eq]
    omega

/-- Witness for `pxr24_float_roundtrip`: one sample, `1.0f`
(little-endian bytes `[0, 0, 128, 63]`, pattern `0x3F800000`). -/
theorem pxr24_float_roundtrip_witness :
    unSegs [(PixelType.FLOAT, 1)] [63, 128, 0] =
      some ([1065353216].flatMap (fun v => writeLE 4 (float24Decode (floatToFloat24 v)))) ∧
    ∀ v ∈ [(1065353216 : Nat)], float24Decode (floatToFloat24 v) % 256 = 0 :=
  pxr24_float_roundtrip 1 [0, 0, 128, 63] [1065353216] [63, 128, 0]
    (by decide) (by decide) (by decide)

/-! ## FastHuf table-construction lemmas -/

lemma foldMin_le_init : ∀ (lens : List Nat) (m : Nat),
    lens.foldl (fun m l => if l ≠ 0 ∧ l < m then l else m) m ≤ m := by
  intro lens
  induction lens with
  | nil => intro m; exact le_refl m
  | cons x lens ih =>
    intro m
    simp only [List.foldl_cons]
    split_ifs with h
    · exact le_trans (ih x) (by omega)
    · exact ih m

lemma foldMin_le_mem : ∀ (lens : List Nat) (m l : Nat), l ∈ lens → l ≠ 0 →
    lens.foldl (fun m l => if l ≠ 0 ∧ l < m then l else m) m ≤ l := by
  intro lens
  induction lens with
  | nil => intro m l hl _; simp at hl
  | cons x lens ih =>
    intro m l hl hlne
    simp only [List.foldl_cons]
    rcases List.mem_cons.mp hl with rfl | hmem
    · split_ifs with h
      · exact foldMin_le_init lens l
      · exact le_trans (foldMin_le_init lens m) (by omega)
    · split_ifs with h <;> exact ih _ l hmem hlne

lemma foldMin_cases : ∀ (lens : List Nat) (m : Nat),
    lens.foldl (fun m l => if l ≠ 0 ∧ l < m then l else m) m = m ∨
    (lens.foldl (fun m l => if l ≠ 0 ∧ l < m then l else m) m ∈ lens ∧
     lens.foldl (fun m l => if l ≠ 0 ∧ l < m then l else m) m ≠ 0) := by
  intro lens
  induction lens with
  | nil => intro m; left; rfl
  | cons x lens ih =>
    intro m
    simp only [List.foldl_cons]
    split_ifs with h
    · rcases ih x with heq | hmem
      · right; rw [heq]; exact ⟨by simp, by omega⟩
      · right; exact ⟨List.mem_cons_of_mem _ hmem.1, hmem.2⟩
    · rcases ih m with heq | hmem
      · left; exact heq
      · right; exact ⟨List.mem_cons_of_mem _ hmem.1, hmem.2⟩

lemma foldMax_init_le : ∀ (lens : List Nat) (m : Nat),
    m ≤ lens.foldl (fun m l => if l ≠ 0 ∧ m < l then l else m) m := by
  intro lens
  induction lens with
  | nil => intro m; exact le_refl m
  | cons x lens ih =>
    intro m
    simp only [List.foldl_cons]
    split_ifs with h
    · exact le_trans (by omega) (ih x)
    · exact ih m

lemma foldMax_mem_le : ∀ (lens : List Nat) (m l : Nat), l ∈ lens → l ≠ 0 →
    l ≤ lens.foldl (fun m l => if l ≠ 0 ∧ m < l then l else m) m := by
  intro lens
  induction lens with
  | nil => intro m l hl _; simp at hl
  | cons x lens ih =>
    intro m l hl hlne
    simp only [List.foldl_cons]
    rcases List.mem_cons.mp hl with rfl | hmem
    · split_ifs with h
      · exact foldMax_init_le lens l
      · exact le_trans (by omega) (foldMax_init_le lens m)
    · split_ifs with h <;> exact ih _ l hmem hlne

lemma foldMax_cases : ∀ (lens : List Nat) (m : Nat),
    lens.foldl (fun m l => if l ≠ 0 ∧ m < l then l else m) m = m ∨
    (lens.foldl (fun m l => if l ≠ 0 ∧ m < l then l else m) m ∈ lens ∧
     lens.foldl (fun m l => if l ≠ 0 ∧ m < l then l else m) m ≠ 0) := by
  intro lens
  induction lens with
  | nil => intro m; left; rfl
  | cons x lens ih =>
    intro m
    simp only [List.foldl_cons]
    split_ifs with h
    · rcases ih x with heq | hmem
      · right; rw [heq]; exact ⟨by simp, by omega⟩
      · right; exact ⟨List.mem_cons_of_mem _ hmem.1, hmem.2⟩
    · rcases ih m with heq | hmem
      · left; exact heq
      · right; exact ⟨List.mem_cons_of_mem _ hmem.1, hmem.2⟩

lemma minCodeLen_le {lens : List Nat} {l : Nat} (hl : l ∈ lens) (hne : l ≠ 0) :
    minCodeLen lens ≤ l :=
  foldMin_le_mem lens 255 l hl hne

lemma le_maxCodeLen {lens : List Nat} {l : Nat} (hl : l ∈ lens) (hne : l ≠ 0) :
    l ≤ maxCodeLen lens :=
  foldMax_mem_le lens 0 l hl hne

lemma minCodeLen_mem {lens : List Nat} (h58 : ∀ l ∈ lens, l ≤ 58)
    (hz : ∃ l ∈ lens, l ≠ 0) : minCodeLen lens ∈ lens ∧ minCodeLen lens ≠ 0 := by
  rcases foldMin_cases lens 255 with heq | hmem
  · obtain ⟨l, hl, hne⟩ := hz
    have h1 := minCodeLen_le hl hne
    have h2 := h58 l hl
    rw [minCodeLen] at *
    omega
  · exact hmem

lemma maxCodeLen_mem {lens : List Nat} (hz : ∃ l ∈ lens, l ≠ 0) :
    maxCodeLen lens ∈ lens ∧ maxCodeLen lens ≠ 0 := by
  rcases foldMax_cases lens 0 with heq | hmem
  · obtain ⟨l, hl, hne⟩ := hz
    have h1 := le_maxCodeLen hl hne
    rw [maxCodeLen] at *
    omega
  · exact hmem

lemma symbolsOf_count (L : Nat) (hL : L ≠ 0) : ∀ (lens : List Nat) (ms : Nat),
    ((symbolsOf ms lens).filter (fun p => p.2 == L)).length = lens.count L := by
  intro lens
  induction lens with
  | nil => intro ms; rfl
  | cons l lens ih =>
    intro ms
    simp only [symbolsOf]
    by_cases hl : l ≠ 0
    · rw [if_pos hl, List.filter_cons]
      by_cases heq : l = L
      · subst heq
        simp only [beq_self_eq_true, if_pos]
        rw [List.count_cons]
        simp [ih]
      · have hne : (((ms, l) : Nat × Nat).2 == L) = false := by simp [heq]
        rw [hne, List.count_cons]
        simp [heq, ih]
    · rw [if_neg hl]
      push_neg at hl
      subst hl
      rw [List.count_cons]
      have : ((0 : Nat) == L) = false := by simp [Ne.symm hL]
      simp [this, ih]

lemma fillIds_le (numSym : Nat) : ∀ (syms : List (Nat × Nat)) (mp idTo r : Nat → Nat),
    fillIds numSym syms mp idTo = some r →
    ∀ L, 0 < (syms.filter (fun p => p.2 == L)).length →
      mp L + (syms.filter (fun p => p.2 == L)).length ≤ numSym := by
  intro syms
  induction syms with
  | nil => intro mp idTo r _ L hpos; simp at hpos
  | cons p rest ih =>
    obtain ⟨sym, len⟩ := p
    intro mp idTo r h L hpos
    simp only [fillIds] at h
    by_cases hchk : numSym ≤ mp len
    · rw [if_pos hchk] at h; exact absurd h (by simp)
    · rw [if_neg hchk] at h
      have ihh := ih _ _ r h
      by_cases heq : len = L
      · subst heq
        rw [List.filter_cons] at hpos ⊢
        simp only [beq_self_eq_true, if_pos, List.length_cons] at hpos ⊢
        by_cases hrest : 0 < (rest.filter (fun p => p.2 == len)).length
        · have h2 := ihh len hrest
          simp at h2
          omega
        · omega
      · have hne : (((sym, len) : Nat × Nat).2 == L) = false := by simp [heq]
        rw [List.filter_cons, hne] at hpos ⊢
        simp only [Bool.false_eq_true, if_false] at hpos ⊢
        have h2 := ihh L hpos
        rw [if_neg (show ¬ (L = len) from fun hh => heq hh.symm)] at h2
        exact h2

lemma offsetTbl_eq_sum (lens : List Nat) : ∀ (k L : Nat), k = maxCodeLen lens - L →
    minCodeLen lens ≤ L → L ≤ maxCodeLen lens →
    offsetTbl lens L = ((List.range' (L+1) (maxCodeLen lens - L)).map (codeCount lens)).sum := by
  intro k
  induction k with
  | zero =>
    intro L hk _ _
    rw [offsetTbl, ← hk]
    simp [offAux, ← hk]
  | succ k ih =>
    intro L hk hmin hmax
    rw [offsetTbl, ← hk]
    simp only [offAux]
    rw [if_pos ⟨hmin, by omega⟩]
    have hk1 : k = maxCodeLen lens - (L+1) := by omega
    have hrec := ih (L+1) hk1 (by omega) (by omega)
    rw [offsetTbl, ← hk1] at hrec
    rw [hrec]
    rw [List.range'_succ]
    simp
    omega

lemma sum_map_f_zero (f : Nat → Nat) : ∀ (l : List Nat), (∀ i ∈ l, f i = 0) →
    (l.map f).sum = 0 := by
  intro l
  induction l with
  | nil => intro _; rfl
  | cons x l ih =>
    intro h
    simp only [List.map_cons, List.sum_cons]
    rw [h x (by simp), ih (fun i hi => h i (by simp [hi]))]

lemma codeCount_zero_outside {lens : List Nat} (i : Nat)
    (h : i < minCodeLen lens ∨ maxCodeLen lens < i) : codeCount lens i = 0 := by
  by_cases hi : i = 0
  · simp [codeCount, hi]
  · rw [codeCount, if_neg hi]
    rw [List.count_eq_zero]
    intro hmem
    rcases h with h | h
    · exact absurd (minCodeLen_le hmem hi) (by omega)
    · exact absurd (le_maxCodeLen hmem hi) (by omega)

lemma sum_range59_split {lens : List Nat} (h58 : ∀ l ∈ lens, l ≤ 58)
    (hz : ∃ l ∈ lens, l ≠ 0) :
    ((List.range 59).map (codeCount lens)).sum =
      codeCount lens (minCodeLen lens) +
      ((List.range' (minCodeLen lens + 1) (maxCodeLen lens - minCodeLen lens)).map
        (codeCount lens)).sum := by
  obtain ⟨hminmem, hminne⟩ := minCodeLen_mem h58 hz
  have hmin58 : minCodeLen lens ≤ 58 := h58 _ hminmem
  have hminmax : minCodeLen lens ≤ maxCodeLen lens := le_maxCodeLen hminmem hminne
  obtain ⟨hmaxmem, _⟩ := maxCodeLen_mem hz
  have hmax58 : maxCodeLen lens ≤ 58 := h58 _ hmaxmem
  have hsplit1 : List.range' 0 (minCodeLen lens) ++
      List.range' (minCodeLen lens) (59 - minCodeLen lens) = List.range' 0 59 := by
    have := List.range'_append 0 (minCodeLen lens) (59 - minCodeLen lens) 1
    simp only [Nat.one_mul, Nat.zero_add] at this
    rw [this]
    congr 1
    omega
  have hsplit2 : List.range' (minCodeLen lens) (maxCodeLen lens + 1 - minCodeLen lens) ++
      List.range' (maxCodeLen lens + 1) (58 - maxCodeLen lens) =
      List.range' (minCodeLen lens) (59 - minCodeLen lens) := by
    have := List.range'_append (minCodeLen lens) (maxCodeLen lens + 1 - minCodeLen lens)
      (58 - maxCodeLen lens) 1
    simp only [Nat.one_mul] at this
    rw [show minCodeLen lens + (maxCodeLen lens + 1 - minCodeLen lens) = maxCodeLen lens + 1
          by omega] at this
    rw [this]
    congr 1
    omega
  rw [List.range_eq_range', ← hsplit1, ← hsplit2]
  simp only [List.map_append, List.sum_append]
  have hz1 : ((List.range' 0 (minCodeLen lens)).map (codeCount lens)).sum = 0 := by
    apply sum_map_f_zero
    intro i hi
    rw [List.mem_range'] at hi
    obtain ⟨k, hk, rfl⟩ := hi
    exact codeCount_zero_outside _ (by omega)
  have hz2 : ((List.range' (maxCodeLen lens + 1) (58 - maxCodeLen lens)).map
      (codeCount lens)).sum = 0 := by
    apply sum_map_f_zero
    intro i hi
    rw [List.mem_range'] at hi
    obtain ⟨k, hk, rfl⟩ := hi
    exact codeCount_zero_outside _ (by omega)
  rw [hz1, hz2]
  rw [show maxCodeLen lens + 1 - minCodeLen lens = (maxCodeLen lens - minCodeLen lens) + 1
        by omega, List.range'_succ]
  simp

lemma sum_map_add (f g : Nat → Nat) : ∀ (l : List Nat),
    (l.map (fun i => f i + g i)).sum = (l.map f).sum + (l.map g).sum := by
  intro l
  induction l with
  | nil => rfl
  | cons x l ih => simp [ih]; omega

lemma codeCount_cons (l : Nat) (lens : List Nat) (i : Nat) :
    codeCount (l :: lens) i = codeCount lens i + (if i ≠ 0 ∧ l = i then 1 else 0) := by
  by_cases hi : i = 0
  · simp [codeCount, hi]
  · rw [codeCount, if_neg hi, codeCount, if_neg hi, List.count_cons]
    by_cases hl : l = i
    · simp [hl, hi]
    · simp [hl, hi]

lemma sum_indicator : ∀ (n a : Nat), a < n →
    ((List.range n).map (fun i => if i ≠ 0 ∧ a = i then 1 else 0)).sum =
      if a ≠ 0 then 1 else 0 := by
  intro n
  induction n with
  | zero => intro a ha; omega
  | succ n ih =>
    intro a ha
    rw [List.range_succ]
    simp only [List.map_append, List.sum_append]
    by_cases han : a = n
    · subst han
      have hz : ((List.range a).map (fun i => if i ≠ 0 ∧ a = i then 1 else 0)).sum = 0 := by
        apply sum_map_f_zero
        intro i hi
        rw [List.mem_range] at hi
        simp [show ¬ (a = i) from by omega]
      rw [hz]
      simp
    · have ha' : a < n := by omega
      rw [ih a ha']
      simp [show ¬ (a = n) from han]

lemma filter_len_eq_sum : ∀ (lens : List Nat), (∀ l ∈ lens, l ≤ 58) →
    (lens.filter (fun l => l != 0)).length = ((List.range 59).map (codeCount lens)).sum := by
  intro lens
  induction lens with
  | nil =>
    intro _
    rw [List.filter_nil]
    rw [sum_map_f_zero (codeCount []) _ (fun i _ => by simp [codeCount])]
    rfl
  | cons l lens ih =>
    intro h58
    have hrec := ih (fun x hx => h58 x (by simp [hx]))
    have hcc : ((List.range 59).map (codeCount (l :: lens))).sum =
        ((List.range 59).map (codeCount lens)).sum + (if l ≠ 0 then 1 else 0) := by
      have hpt : (List.range 59).map (codeCount (l :: lens)) =
          (List.range 59).map (fun i => codeCount lens i + (if i ≠ 0 ∧ l = i then 1 else 0)) := by
        apply List.map_congr_left
        intro i _
        exact codeCount_cons l lens i
      rw [hpt, sum_map_add, sum_indicator 59 l (by have := h58 l (by simp); omega)]
    rw [hcc, List.filter_cons]
    by_cases hl : l ≠ 0
    · rw [if_pos (by simp [hl])]
      simp only [List.length_cons]
      rw [hrec]
      simp [hl]
    · rw [if_neg (by simp [hl])]
      rw [hrec]
      simp [hl]

lemma numSymbolsOf_plus (lens : List Nat) :
    numSymbolsOf lens + codeCount lens 58 = ((List.range 59).map (codeCount lens)).sum := by
  rw [numSymbolsOf, show (59 : Nat) = 58 + 1 from rfl, List.range_succ]
  simp [MAX_CODE_LEN]

lemma buildDecoder_inv (minSym rleSym : Nat) (lens : List Nat) (d : FHD)
    (h : buildDecoder minSym rleSym lens = some d) :
    (∀ l ∈ lens, l ≤ 58) ∧
    ∃ idTo, idToSymbolOf minSym lens = some idTo ∧ d = mkFHD rleSym lens idTo ∧
      ∀ i < 2^TABLE_LOOKUP_BITS, (accEntryOf lens idTo i).isSome := by
  simp only [buildDecoder] at h
  by_cases h58 : lens.all (fun l => decide (l ≤ MAX_CODE_LEN)) = true
  · rw [if_pos h58] at h
    cases hid : idToSymbolOf minSym lens with
    | none => rw [hid] at h; exact absurd h (by simp)
    | some idTo =>
      rw [hid] at h
      dsimp only at h
      by_cases hacc : (List.range (2^TABLE_LOOKUP_BITS)).all
          (fun i => (accEntryOf lens idTo i).isSome) = true
      · rw [if_pos hacc] at h
        simp at h
        refine ⟨?_, idTo, rfl, h.symm, ?_⟩
        · intro l hl
          have := List.all_eq_true.mp h58 l hl
          simpa [MAX_CODE_LEN] using this
        · intro i hi
          have := List.all_eq_true.mp hacc i (List.mem_range.mpr hi)
          simpa using this
      · rw [if_neg hacc] at h; exact absurd h (by simp)
  · rw [if_neg h58] at h; exact absurd h (by simp)

/-- Claim C5: for every code book accepted by the constructor,
`_numSymbols` equals the number of symbols with nonzero code length —
including length-58 symbols: the id→symbol fill necessarily rejects any
book containing a length-`MAX_CODE_LEN` code (the cursor for the
shortest length would run past `_numSymbols`), so the sum that stops at
`MAX_CODE_LEN - 1` loses nothing on accepted books. -/
theorem fasthuf_num_symbols (minSym rleSym : Nat) (lens : List Nat) (d : FHD)
    (h : buildDecoder minSym rleSym lens = some d) :
    d.numSymbols = (lens.filter (fun l => l != 0)).length := by
  obtain ⟨h58, idTo, hid, rfl, _⟩ := buildDecoder_inv minSym rleSym lens d h
  show numSymbolsOf lens = _
  by_cases hz : ∃ l ∈ lens, l ≠ 0
  · obtain ⟨hminmem, hminne⟩ := minCodeLen_mem h58 hz
    have hminmax : minCodeLen lens ≤ maxCodeLen lens := le_maxCodeLen hminmem hminne
    have hcntpos : 0 < ((symbolsOf minSym lens).filter
        (fun p => p.2 == minCodeLen lens)).length := by
      rw [symbolsOf_count _ hminne]
      exact List.count_pos_iff_mem.mpr hminmem
    have hcur := fillIds_le (numSymbolsOf lens) (symbolsOf minSym lens) (mapping0 lens)
      (fun _ => 0) idTo hid (minCodeLen lens) hcntpos
    rw [symbolsOf_count _ hminne] at hcur
    rw [mapping0, if_pos ⟨le_refl _, hminmax⟩] at hcur
    rw [offsetTbl_eq_sum lens (maxCodeLen lens - minCodeLen lens) (minCodeLen lens) rfl
          (le_refl _) hminmax] at hcur
    have hsplit := sum_range59_split h58 hz
    have hplus := numSymbolsOf_plus lens
    have hfl := filter_len_eq_sum lens h58
    have hcc : codeCount lens (minCodeLen lens) = lens.count (minCodeLen lens) := by
      rw [codeCount, if_neg hminne]
    omega
  · push_neg at hz
    have h1 : (lens.filter (fun l => l != 0)).length = 0 := by
      rw [List.length_eq_zero, List.filter_eq_nil]
      intro a ha
      simp [hz a ha]
    rw [h1, numSymbolsOf]
    apply sum_map_f_zero
    intro i _
    by_cases hi : i = 0
    · simp [codeCount, hi]
    · rw [codeCount, if_neg hi, List.count_eq_zero]
      intro hmem
      exact hi (hz i hmem)

lemma buildDecoder_intro (minSym rleSym : Nat) (lens : List Nat) (idTo : Nat → Nat)
    (h58 : lens.all (fun l => decide (l ≤ MAX_CODE_LEN)) = true)
    (hid : idToSymbolOf minSym lens = some idTo)
    (hacc : (List.range (2^TABLE_LOOKUP_BITS)).all
      (fun i => (accEntryOf lens idTo i).isSome) = true) :
    buildDecoder minSym rleSym lens = some (mkFHD rleSym lens idTo) := by
  simp only [buildDecoder, hid]
  rw [if_pos h58]
  rw [if_pos hacc]

lemma accEntryC8 (i : Nat) (hi : i < 2^TABLE_LOOKUP_BITS) :
    accEntryOf lensC8 idToC8 i = some (1, idToC8 (i / 2^11)) := by
  have hfl : firstLen lensC8 (i <<< (64 - TABLE_LOOKUP_BITS)) = some 1 := by
    rw [firstLen, show maxCodeLen lensC8 + 1 - minCodeLen lensC8 = 1 from rfl,
        show minCodeLen lensC8 = 1 from rfl]
    simp only [firstLenAux]
    rw [if_pos (by rw [show ljBase lensC8 1 = 0 from rfl]; exact Nat.zero_le _)]
  simp only [accEntryOf, hfl]
  have hid : (ljOffset lensC8 1 + ((i <<< (64 - TABLE_LOOKUP_BITS)) >>> (64 - 1))) % 2^64
      = i / 2^11 := by
    rw [show ljOffset lensC8 1 = 0 from rfl, Nat.shiftLeft_eq, Nat.shiftRight_eq_div_pow]
    rw [show (64 : Nat) - TABLE_LOOKUP_BITS = 52 from rfl]
    have h1 : i * 2^52 / 2^63 = i / 2^11 := by
      rw [show (2:Nat)^63 = 2^11 * 2^52 by norm_num, Nat.mul_comm (2^11) (2^52),
          ← Nat.div_div_eq_div_mul, Nat.mul_div_cancel _ (by norm_num)]
    rw [h1, Nat.zero_add, Nat.mod_eq_of_lt (by simp [TABLE_LOOKUP_BITS] at hi; omega)]
  rw [hid]
  rw [if_pos (by rw [show numSymbolsOf lensC8 = 2 from rfl]; simp [TABLE_LOOKUP_BITS] at hi; omega)]

lemma accOkC8 : (List.range (2^TABLE_LOOKUP_BITS)).all
    (fun i => (accEntryOf lensC8 idToC8 i).isSome) = true := by
  rw [List.all_eq_true]
  intro i hi
  rw [List.mem_range] at hi
  rw [accEntryC8 i hi]
  rfl

lemma buildC8 : buildDecoder 0 7 lensC8 = some fhdC8 :=
  buildDecoder_intro 0 7 lensC8 idToC8 (by decide) rfl accOkC8

/-- Witness for `fasthuf_num_symbols`: the two-symbol book `lensC8`. -/
theorem fasthuf_num_symbols_witness :
    buildDecoder 0 7 lensC8 = some fhdC8 ∧
    fhdC8.numSymbols = (lensC8.filter (fun l => l != 0)).length :=
  ⟨buildC8, fasthuf_num_symbols 0 7 lensC8 fhdC8 buildC8⟩

lemma rnd53_id {n : Nat} (h : n < 2^53) : rnd53 n = n := by
  rw [rnd53, if_pos h]

lemma foldRnd_exact (lens : List Nat) : ∀ (ks : List Nat) (acc : Nat),
    acc + (ks.map (fun k => codeCount lens k * 2^(maxCodeLen lens - k + 1))).sum < 2^53 →
    ks.foldl (fun acc k => rnd53 (acc + countTmp lens k)) acc =
      acc + (ks.map (fun k => codeCount lens k * 2^(maxCodeLen lens - k + 1))).sum := by
  intro ks
  induction ks with
  | nil => intro acc _; simp
  | cons k ks ih =>
    intro acc h
    simp only [List.map_cons, List.sum_cons] at h ⊢
    have hprod : codeCount lens k * 2^(maxCodeLen lens - k + 1) < 2^53 := by omega
    have hct : countTmp lens k = codeCount lens k * 2^(maxCodeLen lens - k + 1) :=
      rnd53_id hprod
    rw [List.foldl_cons, hct, rnd53_id (by omega)]
    rw [ih (acc + codeCount lens k * 2^(maxCodeLen lens - k + 1)) (by omega)]
    omega

lemma ceilDivN_two_mul (a b : Nat) (hb : 0 < b) : ceilDivN (2*a) (2*b) = ceilDivN a b := by
  rw [ceilDivN, ceilDivN]
  set q := (a + b - 1) / b with hq
  set s := (a + b - 1) % b with hs
  have hdm : a + b - 1 = b * q + s := (Nat.div_add_mod _ _).symm
  have hslt : s < b := Nat.mod_lt _ hb
  have hbq : 2*b*q = 2*(b*q) := by ring
  have h1 : 2*a + 2*b - 1 = 2*b*q + (2*s + 1) := by rw [hbq]; omega
  rw [h1, Nat.mul_add_div (by omega), Nat.div_eq_of_lt (by omega)]
  omega

lemma sum_map_two_mul (g : Nat → Nat) : ∀ (l : List Nat),
    (l.map (fun k => 2 * g k)).sum = 2 * (l.map g).sum := by
  intro l
  induction l with
  | nil => rfl
  | cons x l ih => simp [ih]; ring

/-- Claim C6 (amended): after the scan, `base[L]` keeps the sentinel
exactly for `L` outside `[minCodeLen, maxCodeLen]` — inside that range
the loop overwrites it even when `codeCount[L] = 0` — and for in-range
`L` it equals the exact closed form
`ceil(Σ_{k>L} codeCount[k]·2^(maxCodeLen-k) / 2^(maxCodeLen-L))`
whenever the double-precision sum incurs no rounding (in particular
whenever the exact sum is below `2^53`); the counterexample shows both
provisos are necessary. -/
theorem fasthuf_base_closed_form (lens : List Nat) (L : Nat) :
    ((L < minCodeLen lens ∨ maxCodeLen lens < L) → baseTbl lens L = SENTINEL) ∧
    (minCodeLen lens ≤ L → L ≤ maxCodeLen lens → exactSumTmp lens L < 2^53 →
      baseTbl lens L = exactBaseSpec lens L) := by
  constructor
  · intro h
    rw [baseTbl, if_neg (by omega)]
  · intro hmin hmax hsum
    rw [baseTbl, if_pos ⟨hmin, hmax⟩]
    rw [exactSumTmp] at hsum
    have hd := foldRnd_exact lens (List.range' (L+1) (maxCodeLen lens - L)) 0 (by omega)
    rw [dblSum, hd, Nat.zero_add]
    rw [exactBaseSpec]
    have hmc : ((List.range' (L+1) (maxCodeLen lens - L)).map
        (fun k => codeCount lens k * 2^(maxCodeLen lens - k + 1))).sum =
        2 * ((List.range' (L+1) (maxCodeLen lens - L)).map
          (fun k => codeCount lens k * 2^(maxCodeLen lens - k))).sum := by
      rw [← sum_map_two_mul]
      apply congrArg
      apply List.map_congr_left
      intro k hk
      rw [List.mem_range'] at hk
      rw [pow_succ]
      ring
    rw [hmc]
    rw [show (2:Nat)^(maxCodeLen lens - L + 1) = 2 * 2^(maxCodeLen lens - L) from by
          rw [pow_succ]; ring]
    exact ceilDivN_two_mul _ _ (by positivity)

set_option maxRecDepth 8000 in
/-- Counterexample to claim C6 as stated: in the book with lengths
`[1, 3]`, length 2 lies strictly between `minCodeLen = 1` and
`maxCodeLen = 3` and has `codeCount = 0`, yet `base[2] = 1`, not the
sentinel; and in the book `[1, 2, 2, 55]` the double-precision sum
rounds (2^55 + 2 → 2^55), so `base[1] = 1` while the exact closed form
gives 2. -/
theorem fasthuf_base_counterexample :
    minCodeLen [1, 3] = 1 ∧ maxCodeLen [1, 3] = 3 ∧ codeCount [1, 3] 2 = 0 ∧
    baseTbl [1, 3] 2 = 1 ∧ baseTbl [1, 3] 2 ≠ SENTINEL ∧
    minCodeLen [1, 2, 2, 55] = 1 ∧ codeCount [1, 2, 2, 55] 1 = 1 ∧
    baseTbl [1, 2, 2, 55] 1 = 1 ∧ exactBaseSpec [1, 2, 2, 55] 1 = 2 := by
  refine ⟨by decide, by decide, by decide, by decide, by decide, by decide, by decide, ?_, ?_⟩
  · decide
  · decide

/-- Witness for `fasthuf_base_closed_form` at the concrete book `[1, 3]`. -/
theorem fasthuf_base_closed_form_witness :
    baseTbl [1, 3] 0 = SENTINEL ∧ baseTbl [1, 3] 2 = exactBaseSpec [1, 3] 2 :=
  ⟨(fasthuf_base_closed_form [1, 3] 0).1 (by decide),
   (fasthuf_base_closed_form [1, 3] 2).2 (by decide) (by decide) (by decide)⟩

/-! ## FastHuf acceleration-table lemmas -/

lemma firstLenAux_sound (lens : List Nat) (v : Nat) : ∀ (fuel L0 L : Nat),
    firstLenAux lens v fuel L0 = some L →
    L0 ≤ L ∧ L < L0 + fuel ∧ ljBase lens L ≤ v ∧
    ∀ L', L0 ≤ L' → L' < L → v < ljBase lens L' := by
  intro fuel
  induction fuel with
  | zero => intro L0 L h; exact absurd h (by simp [firstLenAux])
  | succ fuel ih =>
    intro L0 L h
    simp only [firstLenAux] at h
    by_cases hc : ljBase lens L0 ≤ v
    · rw [if_pos hc] at h
      obtain rfl := Option.some_injective _ h
      exact ⟨le_refl _, by omega, hc, fun L' h1 h2 => by omega⟩
    · rw [if_neg hc] at h
      obtain ⟨h1, h2, h3, h4⟩ := ih (L0 + 1) L h
      refine ⟨by omega, by omega, h3, ?_⟩
      intro L' hL1 hL2
      by_cases hL0 : L' = L0
      · subst hL0; omega
      · exact h4 L' (by omega) hL2

lemma firstLenAux_complete (lens : List Nat) (v : Nat) : ∀ (fuel L0 L : Nat),
    L0 ≤ L → L < L0 + fuel → ljBase lens L ≤ v →
    (∀ L', L0 ≤ L' → L' < L → v < ljBase lens L') →
    firstLenAux lens v fuel L0 = some L := by
  intro fuel
  induction fuel with
  | zero => intro L0 L h1 h2 _ _; omega
  | succ fuel ih =>
    intro L0 L h1 h2 h3 h4
    simp only [firstLenAux]
    by_cases hL0 : L = L0
    · subst hL0
      rw [if_pos h3]
    · rw [if_neg (by have := h4 L0 (le_refl _) (by omega); omega)]
      exact ih (L0 + 1) L (by omega) (by omega) h3 (fun L' ha hb => h4 L' (by omega) hb)

lemma maxCodeLen_le58 {lens : List Nat} (h58 : ∀ l ∈ lens, l ≤ 58) :
    maxCodeLen lens ≤ 58 := by
  rcases foldMax_cases lens 0 with heq | hmem
  · rw [maxCodeLen, heq]; omega
  · exact h58 _ hmem.1

lemma floorLog2Aux_le_self (n : Nat) : ∀ E, 1 ≤ n → 2^(floorLog2Aux n E) ≤ n := by
  intro E
  induction E with
  | zero => intro h; simpa [floorLog2Aux] using h
  | succ E ih =>
    intro h
    simp only [floorLog2Aux]
    split_ifs with hc
    · exact hc
    · exact ih h

lemma rnd53_le_add {n : Nat} (h : n < 2^82) : rnd53 n ≤ n + 2^30 := by
  simp only [rnd53]
  split_ifs with h53 h2 h3
  · omega
  · have := Nat.div_mul_le_self n (2^(floorLog2 n - 52))
    omega
  · -- round up: (q+1)*u = q*u + u ≤ n + u
    have hn1 : 1 ≤ n := by omega
    have hfl : 2^(floorLog2 n) ≤ n := floorLog2Aux_le_self n 127 hn1
    have hflle : floorLog2 n ≤ 81 := by
      by_contra hgt
      push_neg at hgt
      have : (2:Nat)^82 ≤ 2^(floorLog2 n) := Nat.pow_le_pow_right (by norm_num) (by omega)
      omega
    have hu : (2:Nat)^(floorLog2 n - 52) ≤ 2^30 := Nat.pow_le_pow_right (by norm_num) (by omega)
    have hq : n / 2^(floorLog2 n - 52) * 2^(floorLog2 n - 52) ≤ n := Nat.div_mul_le_self _ _
    have : (n / 2^(floorLog2 n - 52) + 1) * 2^(floorLog2 n - 52)
        = n / 2^(floorLog2 n - 52) * 2^(floorLog2 n - 52) + 2^(floorLog2 n - 52) := by ring
    omega
  · -- tie branch, round down
    have hq : n / 2^(floorLog2 n - 52) * 2^(floorLog2 n - 52) ≤ n := Nat.div_mul_le_self _ _
    omega
  · -- tie branch, round up
    have hn1 : 1 ≤ n := by omega
    have hfl : 2^(floorLog2 n) ≤ n := floorLog2Aux_le_self n 127 hn1
    have hflle : floorLog2 n ≤ 81 := by
      by_contra hgt
      push_neg at hgt
      have : (2:Nat)^82 ≤ 2^(floorLog2 n) := Nat.pow_le_pow_right (by norm_num) (by omega)
      omega
    have hu : (2:Nat)^(floorLog2 n - 52) ≤ 2^30 := Nat.pow_le_pow_right (by norm_num) (by omega)
    have hq : n / 2^(floorLog2 n - 52) * 2^(floorLog2 n - 52) ≤ n := Nat.div_mul_le_self _ _
    have hsq : (n / 2^(floorLog2 n - 52) + 1) * 2^(floorLog2 n - 52)
        = n / 2^(floorLog2 n - 52) * 2^(floorLog2 n - 52) + 2^(floorLog2 n - 52) := by ring
    omega

lemma countTmp_le (lens : List Nat) (hlen : lens.length ≤ 65537)
    (hmax : maxCodeLen lens ≤ 58) (L k : Nat) (hk1 : L + 1 ≤ k)
    (hk2 : k ≤ maxCodeLen lens) :
    countTmp lens k ≤ 2^17 * 2^(maxCodeLen lens - L) + 2^30 := by
  have hcc : codeCount lens k ≤ 2^17 := by
    rw [codeCount]
    split_ifs
    · omega
    · exact le_trans (List.count_le_length _ _) (by omega)
  have hexp : (2:Nat)^(maxCodeLen lens - k + 1) ≤ 2^(maxCodeLen lens - L) :=
    Nat.pow_le_pow_right (by norm_num) (by omega)
  have hprod : codeCount lens k * 2^(maxCodeLen lens - k + 1)
      ≤ 2^17 * 2^(maxCodeLen lens - L) := Nat.mul_le_mul hcc hexp
  have hbig : (2:Nat)^(maxCodeLen lens - L) ≤ 2^58 :=
    Nat.pow_le_pow_right (by norm_num) (by omega)
  have hlt : codeCount lens k * 2^(maxCodeLen lens - k + 1) < 2^82 := by omega
  have := rnd53_le_add hlt
  rw [countTmp]
  omega

lemma foldRnd_le (lens : List Nat) (T : Nat) :
    ∀ (ks : List Nat) (acc : Nat),
    (∀ k ∈ ks, countTmp lens k ≤ T) →
    acc + ks.length * (T + 2^30) ≤ 2^82 →
    ks.foldl (fun acc k => rnd53 (acc + countTmp lens k)) acc ≤
      acc + ks.length * (T + 2^30) := by
  intro ks
  induction ks with
  | nil => intro acc _ _; simp
  | cons k ks ih =>
    intro acc hk hb
    simp only [List.foldl_cons, List.length_cons]
    have hsm : (ks.length + 1) * (T + 2^30) = ks.length * (T + 2^30) + (T + 2^30) := by
      ring
    rw [List.length_cons] at hb
    have hct : countTmp lens k ≤ T := hk k (List.mem_cons_self _ _)
    have hlt : acc + countTmp lens k < 2^82 := by omega
    have h1 : rnd53 (acc + countTmp lens k) ≤ acc + countTmp lens k + 2^30 :=
      rnd53_le_add hlt
    have h2 := ih (rnd53 (acc + countTmp lens k))
      (fun k' hk' => hk k' (List.mem_cons_of_mem _ hk')) (by omega)
    omega

lemma dblSum_le (lens : List Nat) (hlen : lens.length ≤ 65537)
    (hmax : maxCodeLen lens ≤ 58) (L : Nat) :
    dblSum lens L ≤ (2^23 + 2^37) * 2^(maxCodeLen lens - L) := by
  rw [dblSum]
  set m := maxCodeLen lens - L with hm
  have hm58 : m ≤ 58 := by omega
  have hx1 : 1 ≤ (2:Nat)^m := Nat.one_le_two_pow
  have hx : (2:Nat)^m ≤ 2^58 := Nat.pow_le_pow_right (by norm_num) hm58
  have hfold := foldRnd_le lens (2^17 * 2^m + 2^30) (List.range' (L+1) m) 0
    (fun k hkmem => by
      have hmem := List.mem_range'_1.mp hkmem
      exact countTmp_le lens hlen hmax L k (by omega) (by omega))
    (by
      rw [List.length_range']
      have h1 : m * (2^17 * 2^m + 2^30 + 2^30) ≤ 58 * (2^17 * 2^58 + 2^30 + 2^30) :=
        Nat.mul_le_mul hm58 (by omega)
      omega)
  rw [List.length_range'] at hfold
  have h2 : m * (2^17 * 2^m + 2^30 + 2^30) ≤ 58 * (2^17 * 2^m + 2^30 + 2^30) :=
    Nat.mul_le_mul_right _ hm58
  omega

lemma baseTbl_lt (lens : List Nat) (hlen : lens.length ≤ 65537)
    (hmax : maxCodeLen lens ≤ 58) (L : Nat)
    (hL : minCodeLen lens ≤ L ∧ L ≤ maxCodeLen lens) :
    baseTbl lens L < 2^40 := by
  rw [baseTbl, if_pos hL]
  have hS := dblSum_le lens hlen hmax L
  set m := maxCodeLen lens - L with hm
  set x := (2:Nat)^m with hx
  have hx1 : 1 ≤ x := Nat.one_le_two_pow
  rw [ceilDivN]
  have hpow : (2:Nat)^(m+1) = 2 * x := by rw [pow_succ]; ring
  rw [hpow, Nat.div_lt_iff_lt_mul (by omega)]
  omega

lemma ljBase_in_range (lens : List Nat) (hlen : lens.length ≤ 65537)
    (hmax : maxCodeLen lens ≤ 58) (L : Nat)
    (hL : minCodeLen lens ≤ L ∧ L ≤ maxCodeLen lens) :
    ljBase lens L = (baseTbl lens L <<< (64 - L)) % 2^64 := by
  have hlt := baseTbl_lt lens hlen hmax L hL
  have hne : baseTbl lens L ≠ SENTINEL := by rw [SENTINEL]; omega
  rw [ljBase, if_pos hne]

lemma ljBase_dvd (lens : List Nat) (hlen : lens.length ≤ 65537)
    (hmax : maxCodeLen lens ≤ 58) (L : Nat) (hL12 : L ≤ 12)
    (hL : minCodeLen lens ≤ L ∧ L ≤ maxCodeLen lens) :
    2^52 ∣ ljBase lens L := by
  rw [ljBase_in_range lens hlen hmax L hL, Nat.shiftLeft_eq]
  have hsplit : (2:Nat)^64 = 2^L * 2^(64 - L) := by rw [← pow_add]; congr 1; omega
  rw [hsplit, Nat.mul_mod_mul_right]
  exact Dvd.dvd.mul_left (pow_dvd_pow 2 (by omega)) _

lemma dvd_le_probe {x b : Nat} (hdvd : 2^52 ∣ x) (hle : x ≤ b) :
    x ≤ (b >>> 52) <<< 52 := by
  obtain ⟨c, rfl⟩ := hdvd
  rw [Nat.shiftRight_eq_div_pow, Nat.shiftLeft_eq]
  have hc : c ≤ b / 2^52 := by
    rw [Nat.le_div_iff_mul_le (by norm_num)]
    omega
  calc (2:Nat)^52 * c = c * 2^52 := by ring
    _ ≤ b / 2^52 * 2^52 := Nat.mul_le_mul_right _ hc

lemma probe_shift_eq (b L : Nat) (hL : L ≤ 12) :
    ((b >>> 52) <<< 52) >>> (64 - L) = b >>> (64 - L) := by
  rw [Nat.shiftRight_eq_div_pow, Nat.shiftLeft_eq, Nat.shiftRight_eq_div_pow,
      Nat.shiftRight_eq_div_pow]
  have h1 : (2:Nat)^(64 - L) = 2^52 * 2^(12 - L) := by rw [← pow_add]; congr 1; omega
  rw [h1, ← Nat.div_div_eq_div_mul, ← Nat.div_div_eq_div_mul,
      Nat.mul_div_cancel _ (by norm_num : 0 < (2:Nat)^52)]

/-- **C4.** FastHuf acceleration correctness: for every successfully
constructed decoder (over a code book from the 16-bit symbol range, hence
at most 65537 entries) and every 64-bit buffer value `b ≥ _tableMin`,
whenever the linear search (smallest `L` with `_ljBase[L] ≤ b`) finds a
length `L ≤ TABLE_LOOKUP_BITS`, the accelerated path — indexing
`_tableCodeLen` / `_tableSymbol` with `b >> (64 - TABLE_LOOKUP_BITS)` —
yields exactly that `L` and the same symbol
`_idToSymbol[(_ljOffset[L] + (b >> (64 - L))) mod 2^64]`. -/
theorem fasthuf_table_acceleration (minSym rleSym : Nat) (lens : List Nat) (d : FHD)
    (hlen : lens.length ≤ 65537)
    (hbuild : buildDecoder minSym rleSym lens = some d)
    (b L : Nat) (hb : b < 2^64) (htm : d.tableMin ≤ b)
    (hfl : firstLen lens b = some L) (hL : L ≤ TABLE_LOOKUP_BITS) :
    d.tableCodeLen (b >>> (64 - TABLE_LOOKUP_BITS)) = L ∧
    d.tableSymbol (b >>> (64 - TABLE_LOOKUP_BITS)) =
      d.idToSymbol ((d.ljOffset L + (b >>> (64 - L))) % 2^64) := by
  obtain ⟨h58, idTo, hid, hd, hacc⟩ := buildDecoder_inv minSym rleSym lens d hbuild
  have hmax : maxCodeLen lens ≤ 58 := maxCodeLen_le58 h58
  have hL12 : L ≤ 12 := by simpa [TABLE_LOOKUP_BITS] using hL
  rw [firstLen] at hfl
  obtain ⟨hL1, hL2, hL3, hL4⟩ := firstLenAux_sound lens b _ _ _ hfl
  have hrange : minCodeLen lens ≤ L ∧ L ≤ maxCodeLen lens := ⟨hL1, by omega⟩
  have hi : b >>> 52 < 2^TABLE_LOOKUP_BITS := by
    rw [Nat.shiftRight_eq_div_pow, TABLE_LOOKUP_BITS]
    rw [Nat.div_lt_iff_lt_mul (by norm_num)]
    omega
  have hprobe_le : (b >>> 52) <<< 52 ≤ b := by
    rw [Nat.shiftRight_eq_div_pow, Nat.shiftLeft_eq]
    exact Nat.div_mul_le_self _ _
  have hbase' : ljBase lens L ≤ (b >>> 52) <<< 52 :=
    dvd_le_probe (ljBase_dvd lens hlen hmax L hL12 hrange) hL3
  have hflp : firstLen lens ((b >>> 52) <<< 52) = some L := by
    rw [firstLen]
    exact firstLenAux_complete lens _ _ _ _ hL1 (by omega) hbase'
      (fun L' ha hb' => lt_of_le_of_lt hprobe_le (hL4 L' ha hb'))
  have h52 : 64 - TABLE_LOOKUP_BITS = 52 := rfl
  have hE : accEntryOf lens idTo (b >>> 52)
      = some (L, idTo ((ljOffset lens L + (b >>> (64 - L))) % 2^64)) := by
    have hs := hacc (b >>> 52) hi
    simp only [accEntryOf, h52, hflp] at hs ⊢
    rw [probe_shift_eq b L hL12] at hs ⊢
    by_cases hidlt :
        (ljOffset lens L + b >>> (64 - L)) % 2^64 < numSymbolsOf lens
    · rw [if_pos hidlt]
    · rw [if_neg hidlt] at hs
      exact absurd hs (by simp)
  subst hd
  refine ⟨?_, ?_⟩
  · show ((accEntryOf lens idTo (b >>> (64 - TABLE_LOOKUP_BITS))).getD (0, 0xffff)).1 = L
    rw [h52, hE]
    rfl
  · show ((accEntryOf lens idTo (b >>> (64 - TABLE_LOOKUP_BITS))).getD (0, 0xffff)).2
      = idTo ((ljOffset lens L + (b >>> (64 - L))) % 2^64)
    rw [h52, hE]
    rfl

/-- Witness for `fasthuf_table_acceleration`: the two-symbol book `lensC8`
at buffer value `2^63`, matched at length 1. -/
theorem fasthuf_table_acceleration_witness :
    buildDecoder 0 7 lensC8 = some fhdC8 ∧
    fhdC8.tableCodeLen (2^63 >>> (64 - TABLE_LOOKUP_BITS)) = 1 ∧
    fhdC8.tableSymbol (2^63 >>> (64 - TABLE_LOOKUP_BITS)) =
      fhdC8.idToSymbol ((fhdC8.ljOffset 1 + (2^63 >>> (64 - 1))) % 2^64) :=
  ⟨buildC8, fasthuf_table_acceleration 0 7 lensC8 fhdC8 (by decide) buildC8 (2^63) 1
    (by norm_num) (by decide) (by decide) (by decide)⟩

/-- **C10.** Zero-output decode: with `numDst = 0` the loop exits at once,
`dst` is returned untouched, and the outcome depends only on the payload
bit count — `InsufficientBits` below 128 bits, success at exactly 128
(the two priming words), `TrailingData` above 128. -/
theorem hufDecode_zero_output (d : FHD) (src : Nat → Nat) (bits : Nat) (dst0 : Nat → Nat) :
    hufDecode d src bits 0 dst0 =
      ((if bits < 128 then some HufErr.insufficientBits
        else if bits = 128 then none else some HufErr.trailingData), dst0) := by
  simp only [hufDecode]
  by_cases h1 : bits < 128
  · rw [if_pos h1, if_pos h1]
  · rw [if_neg h1, if_neg h1]
    simp only [decodeLoop]
    rw [if_pos (Nat.le_refl 0)]
    dsimp only
    by_cases h2 : bits = 128
    · rw [if_pos h2]
      have h0 : bits - 128 = 0 := by omega
      simp [h0]
    · rw [if_neg h2]
      have h0 : bits - 128 ≠ 0 := by omega
      simp [h0]

lemma decodeLoop_writes_confined (d : FHD) (src : Nat → Nat) (numDst : Nat) :
    ∀ (fuel : Nat) (st : BitSt) (dstIdx : Nat) (dst : Nat → Nat) (j : Nat), numDst ≤ j →
    (decodeLoop d src numDst fuel st dstIdx dst).2.2.2 j = dst j := by
  intro fuel
  induction fuel with
  | zero =>
    intro st dstIdx dst j hj
    simp only [decodeLoop]
    split_ifs <;> rfl
  | succ fuel ih =>
    intro st dstIdx dst j hj
    simp only [decodeLoop]
    by_cases hd2 : numDst ≤ dstIdx
    · rw [if_pos hd2]
    · rw [if_neg hd2]
      cases hds : decodeSym d src st with
      | error e => rfl
      | ok v =>
        obtain ⟨cl, sym, stA⟩ := v
        dsimp only
        by_cases hsym : sym = d.rleSymbol
        · rw [if_pos hsym]
          set stC := rleRefill src (consumeBits cl stA) with hstC
          by_cases hfirst : dstIdx < 1
          · rw [if_pos hfirst]
          · rw [if_neg hfirst]
            by_cases hover : numDst < dstIdx + stC.buffer >>> 56
            · rw [if_pos hover]
            · rw [if_neg hover]
              by_cases hzero : stC.buffer >>> 56 = 0
              · rw [if_pos hzero]
              · rw [if_neg hzero]
                rw [ih _ _ _ j hj, writeRun]
                rw [if_neg (by omega)]
        · rw [if_neg hsym]
          rw [ih _ _ _ j hj]
          rw [if_neg (by omega)]

/-- **C9 (counterexample).** Decode is not atomic on error: for the
two-symbol decoder `fhdC8`, payload `srcC8` with 136 bits and one output
element, decode fails with `TrailingData` yet `dst[0]` has been
overwritten with the decoded symbol 5 (the pre-call contents were 0). -/
theorem hufDecode_error_partial_write :
    (hufDecode fhdC8 srcC8 136 1 (fun _ => 0)).1 = some HufErr.trailingData ∧
    (hufDecode fhdC8 srcC8 136 1 (fun _ => 0)).2 0 = 5 := by decide

/-- **C9 (amended).** What the code guarantees instead: every write of
`decode` lands at an index below `num_dst_elems` — entries at or past
`num_dst_elems` always keep their pre-call contents — but on error the
already-decoded prefix below `num_dst_elems` may remain (no rollback). -/
theorem hufDecode_writes_confined (d : FHD) (src : Nat → Nat) (bits numDst : Nat)
    (dst0 : Nat → Nat) (j : Nat) (hj : numDst ≤ j) :
    (hufDecode d src bits numDst dst0).2 j = dst0 j := by
  simp only [hufDecode]
  split_ifs with h1
  · rfl
  · have hw := decodeLoop_writes_confined d src numDst numDst
      { buffer := read64 src 0, bufNB := 64, back := read64 src 8,
        backNB := 64, pos := 16, bitsLeft := bits - 128 } 0 dst0 j hj
    rcases hloop : decodeLoop d src numDst numDst
      { buffer := read64 src 0, bufNB := 64, back := read64 src 8,
        backNB := 64, pos := 16, bitsLeft := bits - 128 } 0 dst0 with ⟨oe, st, di, dst⟩
    rw [hloop] at hw
    cases oe with
    | none =>
      dsimp only at hw ⊢
      split_ifs <;> exact hw
    | some e => exact hw

/-- Witness for `hufDecode_writes_confined`: index 2 is outside the
one-element output range and keeps its pre-call value 0 even though the
call errors. -/
theorem hufDecode_writes_confined_witness :
    (1:Nat) ≤ 2 ∧ (hufDecode fhdC8 srcC8 136 1 (fun _ => 0)).2 2 = 0 :=
  ⟨by decide, hufDecode_writes_confined fhdC8 srcC8 136 1 (fun _ => 0) 2 (by decide)⟩

/-- **C8.** FastHuf RLE semantics: whenever the decode loop resolves the
RLE symbol, it tops the buffer up to at least 8 bits, reads the top 8
bits as the count, and then — in source order — fails `RleBeforeFirst`
when `dstIdx < 1`, `RleOverrun` when `dstIdx + count > numDst`,
`RleInvalid` when the count is zero, and otherwise consumes the 8 count
bits and appends `count` copies of `dst[dstIdx-1]`; concretely, a stream
emitting symbol 5, then the RLE symbol 7, then count byte 3 decodes to
`[5, 5, 5, 5]`. -/
theorem fasthuf_rle_semantics :
    (∀ (d : FHD) (src : Nat → Nat) (numDst fuel : Nat) (st : BitSt) (dstIdx : Nat)
        (dst : Nat → Nat) (cl sym : Nat) (stA : BitSt),
        dstIdx < numDst →
        decodeSym d src st = Except.ok (cl, sym, stA) →
        sym = d.rleSymbol →
        decodeLoop d src numDst (fuel + 1) st dstIdx dst =
          (let stC := rleRefill src (consumeBits cl stA)
           let cnt := stC.buffer >>> 56
           if dstIdx < 1 then (some HufErr.rleBeforeFirst, stC, dstIdx, dst)
           else if numDst < dstIdx + cnt then (some HufErr.rleOverrun, stC, dstIdx, dst)
           else if cnt = 0 then (some HufErr.rleInvalid, stC, dstIdx, dst)
           else decodeLoop d src numDst fuel (tailRefill src (consumeBits 8 stC))
             (dstIdx + cnt) (writeRun dst dstIdx cnt (dst (dstIdx - 1))))) ∧
    ((hufDecode fhdC8 srcC8 128 4 (fun _ => 0)).1 = none ∧
      ∀ j, j < 4 → (hufDecode fhdC8 srcC8 128 4 (fun _ => 0)).2 j = 5) := by
  constructor
  · intro d src numDst fuel st dstIdx dst cl sym stA hlt hds hsym
    conv_lhs => rw [decodeLoop]
    rw [if_neg (show ¬ numDst ≤ dstIdx by omega)]
    rw [hds]
    dsimp only
    rw [if_pos hsym]
  · exact ⟨by decide, by decide⟩

/-- Witness for `fasthuf_rle_semantics`: a state carrying code `1`
(the RLE symbol 7) whose 8-bit count 128 overruns the 4-element output,
so the step takes the `RleOverrun` branch. -/
theorem fasthuf_rle_semantics_witness :
    (1:Nat) < 4 ∧
    decodeSym fhdC8 srcC8 ⟨0xC000000000000000, 64, 0, 0, 16, 0⟩
      = Except.ok (1, 7, ⟨0xC000000000000000, 64, 0, 0, 16, 0⟩) ∧
    (7:Nat) = fhdC8.rleSymbol ∧
    decodeLoop fhdC8 srcC8 4 (0 + 1) ⟨0xC000000000000000, 64, 0, 0, 16, 0⟩ 1 (fun _ => 5)
      = (let stC := rleRefill srcC8 (consumeBits 1 ⟨0xC000000000000000, 64, 0, 0, 16, 0⟩)
         let cnt := stC.buffer >>> 56
         if (1:Nat) < 1 then (some HufErr.rleBeforeFirst, stC, 1, fun _ => (5:Nat))
         else if 4 < 1 + cnt then (some HufErr.rleOverrun, stC, 1, fun _ => (5:Nat))
         else if cnt = 0 then (some HufErr.rleInvalid, stC, 1, fun _ => (5:Nat))
         else decodeLoop fhdC8 srcC8 4 0 (tailRefill srcC8 (consumeBits 8 stC)) (1 + cnt)
           (writeRun (fun _ => 5) 1 cnt ((fun _ => (5:Nat)) (1 - 1)))) :=
  ⟨by decide, by rfl, by decide,
    fasthuf_rle_semantics.1 fhdC8 srcC8 4 0 ⟨0xC000000000000000, 64, 0, 0, 16, 0⟩ 1
      (fun _ => 5) 1 7 ⟨0xC000000000000000, 64, 0, 0, 16, 0⟩
      (by decide) (by rfl) (by decide)⟩
